import Mathlib

/-!
A verification development for the peer-frontier pruning engine
(`src/net/prune.rs` of the repository).  The Rust module is shallowly
embedded: hash maps become association lists whose list order stands for
the map's iteration order, `u64` arithmetic becomes `Nat` (with truncated
subtraction; no reachable computation here under- or overflows), `f64`
health scores and drop probabilities become exact rationals, the ambient
clock `get_epoch_time_secs` and the RNG become explicit parameters, and
panics (`unreachable!`, out-of-bounds `Vec::remove`/indexing) become
`Option.none`.  Rust `Result` becomes `Except`.
-/

namespace Prune

open List

/-- `NeighborKey` from `net/mod.rs`: network id, address bytes (modelled
opaquely as a `Nat`) and port. -/
structure NeighborKey where
  network_id : Nat
  addrbytes : Nat
  port : Nat
deriving DecidableEq, Repr

/-- `NeighborStats` (from `net/chat.rs`, not part of the excerpt).
Modelled from the spec: the pruning engine reads the `outbound` flag,
`first_contact_time` (epoch seconds) and the derived health score, which
we carry as a field (`get_health_score` itself is outside the excerpt). -/
structure NeighborStats where
  outbound : Bool
  first_contact_time : Nat
  health : ℚ
deriving DecidableEq, Repr

/-- A conversation, as seen by the pruning engine: its stats and the
neighbor key produced by `Conversation::to_neighbor_key`. -/
structure Conversation where
  stats : NeighborStats
  neighborKey : NeighborKey
deriving DecidableEq, Repr

/-- The slice of `PeerNetwork` state the pruning module touches.
`events` is the map neighbor key → event id, `peers` the map
event id → conversation; both are association lists whose order models
the hash map's iteration order.  The prune counters are total functions
with `0` standing for an absent key (the code only ever inserts positive
counts). -/
structure PeerNetwork where
  events : List (NeighborKey × Nat)
  peers : List (Nat × Conversation)
  soft_num_neighbors : Nat
  soft_max_neighbors_per_org : Nat
  soft_num_clients : Nat
  soft_max_clients_per_host : Nat
  prune_inbound_counts : NeighborKey → Nat
  prune_outbound_counts : NeighborKey → Nat

/-- Association-list lookup (first entry wins), the model of `HashMap::get`. -/
def lookupA {α β : Type} [DecidableEq α] : List (α × β) → α → Option β
  | [], _ => none
  | (a, b) :: t, x => if a = x then some b else lookupA t x

/-- Model of the `HashMap<_, Vec<_>>` insert-or-push idiom used by both
classification builders: push `v` at the end of `k`'s list when `k` is
present, otherwise append a fresh singleton entry. -/
def insertPush {α β : Type} [DecidableEq α] : List (α × List β) → α → β → List (α × List β)
  | [], k, v => [(k, [v])]
  | (a, l) :: t, k, v => if a = k then (a, l ++ [v]) :: t else (a, l) :: insertPush t k v

/-- Replace the (first) entry for key `k` by the given list. -/
def replaceA {α β : Type} [DecidableEq α] : List (α × β) → α → β → List (α × β)
  | [], _, _ => []
  | (a, b) :: t, k, v => if a = k then (a, v) :: t else (a, b) :: replaceA t k v

/-- All values of a keyed list-of-lists, in iteration order. -/
def groupVals {α β : Type} : List (α × List β) → List β
  | [] => []
  | (_, l) :: t => l ++ groupVals t

/-- `n` repetitions of `Vec::remove(0)`: drop the first `n` elements,
panicking (`none`) when the vector runs out. -/
def removeFrontN {α : Type} : Nat → List α → Option (List α)
  | 0, l => some l
  | _ + 1, [] => none
  | n + 1, _ :: t => removeFrontN n t

/-- Floor of `log2` on `Nat`, written with structural fuel recursion so
that it reduces inside the kernel (`natLog2 n` agrees with `Nat.log2 n`;
`natLog2 0 = natLog2 1 = 0`). -/
def natLog2Aux : Nat → Nat → Nat
  | 0, _ => 0
  | fuel + 1, n => if n ≤ 1 then 0 else natLog2Aux fuel (n / 2) + 1

/-- Floor of `log2` on `Nat`. -/
def natLog2 (n : Nat) : Nat := natLog2Aux n n

/-- `max(0, round(log2 n))` for a `Nat` uptime, as computed by the code on
`f64`.  For integral `n ≥ 1`, `log2 n` is never exactly halfway between
two integers, so rounding is unambiguous: the result is `⌊log2 n⌋`
when `n^2 < 2^(2*⌊log2 n⌋ + 1)` and `⌊log2 n⌋ + 1` otherwise; `n = 0`
gives `log2 0 = -∞` and `fmax` clamps it to `0`. -/
def uptimeBucket (n : Nat) : Nat :=
  let k := natLog2 n
  if n * n < 2 ^ (2 * k + 1) then k else k + 1

/-- `compare_neighbor_uptime_health` (prune.rs:131-157), with the current
time as an explicit parameter.  The second bucket comparison is kept
exactly as written in the source: it compares `uptime_bucket_1` against
itself. -/
def compare_neighbor_uptime_health (now : Nat) (stats1 stats2 : NeighborStats) : Ordering :=
  let uptime_bucket_1 := uptimeBucket (now - stats1.first_contact_time)
  let uptime_bucket_2 := uptimeBucket (now - stats2.first_contact_time)
  if uptime_bucket_1 < uptime_bucket_2 then Ordering.lt
  else if uptime_bucket_1 > uptime_bucket_1 then Ordering.gt
  else if stats1.health < stats2.health then Ordering.lt
  else if stats1.health > stats2.health then Ordering.gt
  else Ordering.eq

/-- Cumulative thresholds of `sample_drop_probability` (prune.rs:69-72):
entry `(k, v)` becomes `(k, v / sum + off)` where `off` is the cumulative
normalized weight of the earlier entries. -/
def normCumul (sum : ℚ) : ℚ → List (NeighborKey × ℚ) → List (NeighborKey × ℚ)
  | _, [] => []
  | off, (k, v) :: t => (k, v / sum + off) :: normCumul sum (off + v / sum) t

/-- `sample_drop_probability` (prune.rs:61-80) over exact rationals.
Returns the first key whose cumulative threshold is `≤ point`, else falls
back to the last entry; `none` models the index panic on an empty map. -/
def sample_drop_probability (point : ℚ) (drop_prob : List (NeighborKey × ℚ)) :
    Option NeighborKey :=
  let sum := (drop_prob.map Prod.snd).sum
  let normalized_dist := normCumul sum 0 drop_prob
  match normalized_dist.find? (fun p => point ≥ p.2) with
  | some p => some p.1
  | none => (normalized_dist.getLast?).map Prod.fst

/-- Total weight of an org-weight list. -/
def totalWeight (ws : List (Nat × Nat)) : Nat := (ws.map Prod.snd).sum

/-- The walk of `sample_org_by_neighbor_count` (prune.rs:168-178): skip
zero-weight entries, return the entry whose `[offset, offset+count)`
interval contains the sample; `none` models the trailing `unreachable!`. -/
def sampleWalk (sample : Nat) : Nat → List (Nat × Nat) → Option Nat
  | _, [] => none
  | offset, (org, count) :: rest =>
    if count = 0 then sampleWalk sample offset rest
    else if offset ≤ sample ∧ sample < offset + count then some org
    else sampleWalk sample (offset + count) rest

/-- `sample_org_by_neighbor_count` (prune.rs:160-180).  The RNG draw is an
explicit parameter; `gen_range(0, total)` panics (`none`) when
`total = 0`, otherwise yields some value in `[0, total)`, which we model
as `draw % total` (every in-range sample is reachable by some draw). -/
def sample_org_by_neighbor_count (draw : Nat) (org_weights : List (Nat × Nat)) : Option Nat :=
  let total := totalWeight org_weights
  if total = 0 then none
  else sampleWalk (draw % total) 0 org_weights

/-- Loop body of `org_neighbor_distribution` (prune.rs:87-122), with the
peer database as a function from neighbor key to lookup outcome
(`Except` for storage errors, `Option` for not-found).  `acc` is the
partially built org map; entries are processed in iteration order. -/
def orgDistGo (db : NeighborKey → Except Unit (Option Nat))
    (peers : List (Nat × Conversation)) (preserve : List Nat)
    (acc : List (Nat × List (NeighborKey × NeighborStats))) :
    List (NeighborKey × Nat) →
      Except Unit (List (Nat × List (NeighborKey × NeighborStats)))
  | [] => Except.ok acc
  | (_, event_id) :: rest =>
    if event_id ∈ preserve then orgDistGo db peers preserve acc rest
    else
      match lookupA peers event_id with
      | none => orgDistGo db peers preserve acc rest
      | some convo =>
        if convo.stats.outbound = false then orgDistGo db peers preserve acc rest
        else
          match db convo.neighborKey with
          | Except.error e => Except.error e
          | Except.ok none => orgDistGo db peers preserve acc rest
          | Except.ok (some org) =>
            orgDistGo db peers preserve
              (insertPush acc org (convo.neighborKey, convo.stats)) rest

/-- `org_neighbor_distribution` (prune.rs:84-124). -/
def org_neighbor_distribution (db : NeighborKey → Except Unit (Option Nat))
    (st : PeerNetwork) (preserve : List Nat) :
    Except Unit (List (Nat × List (NeighborKey × NeighborStats))) :=
  orgDistGo db st.peers preserve [] st.events

/-- `PeerNetwork::count_outbound_conversations` (declared in
`net/p2p.rs`, outside the excerpt).  Modelled from the spec: the number
of live conversations whose `outbound` flag is set. -/
def count_outbound_conversations (peers : List (Nat × Conversation)) : Nat :=
  (peers.filter (fun p => p.2.stats.outbound)).length

/-- `PeerNetwork::num_peers` (declared in `net/p2p.rs`, outside the
excerpt).  Modelled from the spec: the number of live conversations in
the connection table. -/
def num_peers (st : PeerNetwork) : Nat := st.peers.length

/-- The inner eviction loop of the hard-trim phase (prune.rs:217-228):
push the keys at indices `0, 1, ...` of the org's sorted list onto the
cumulative result, breaking early once
`num_outbound - ret.len() ≤ soft_num_neighbors`; the counter argument is
`len - soft_max_neighbors_per_org`. -/
def hardTrimPush (numOutbound softNum : Nat) :
    List (NeighborKey × NeighborStats) → Nat → List NeighborKey → List NeighborKey
  | _, 0, ret => ret
  | [], _ + 1, ret => ret
  | (nk, _) :: restInfos, c + 1, ret =>
    let ret' := ret ++ [nk]
    if numOutbound - ret'.length ≤ softNum then ret'
    else hardTrimPush numOutbound softNum restInfos c ret'

/-- The hard-trim phase (prune.rs:212-235).  For each org in iteration
order whose list exceeds the per-org cap, run the eviction loop and then
perform `ret.len()` repetitions of `Vec::remove(0)` on that org's list —
`ret` being the cumulative result across orgs, exactly as in the source;
`none` models the `Vec::remove` panic when the list runs out. -/
def hardTrimGo (cap numOutbound softNum : Nat) :
    List (Nat × List (NeighborKey × NeighborStats)) → List NeighborKey →
      Option (List NeighborKey × List (Nat × List (NeighborKey × NeighborStats)))
  | [], ret => some (ret, [])
  | (org, neighbor_infos) :: rest, ret =>
    if cap < neighbor_infos.length then
      let ret' := hardTrimPush numOutbound softNum neighbor_infos
        (neighbor_infos.length - cap) ret
      match removeFrontN ret'.length neighbor_infos with
      | none => none
      | some infos' =>
        match hardTrimGo cap numOutbound softNum rest ret' with
        | none => none
        | some (retF, restF) => some (retF, (org, infos') :: restF)
    else
      match hardTrimGo cap numOutbound softNum rest ret with
      | none => none
      | some (retF, restF) => some (retF, (org, neighbor_infos) :: restF)

/-- The weight map built at the top of each proportional-sampling
iteration (prune.rs:246-251): org → remaining member count, zero-size
orgs excluded. -/
def buildWeighted (m : List (Nat × List (NeighborKey × NeighborStats))) : List (Nat × Nat) :=
  m.filterMap (fun p => if p.2.length ≠ 0 then some (p.1, p.2.length) else none)

/-- The proportional-sampling loop (prune.rs:245-272).  Each iteration
draws `oracle fuel`, samples an org, pops the front of its list and
appends the key to the result; `none` models the `unreachable!` and
index panics.  The fuel is an upper bound on the iteration count; the
caller supplies more than the total number of remaining members, so fuel
exhaustion is unreachable. -/
def samplingLoop (oracle : Nat → Nat) (numOutbound softNum : Nat) :
    Nat → List (Nat × List (NeighborKey × NeighborStats)) → List NeighborKey →
      Option (List NeighborKey × List (Nat × List (NeighborKey × NeighborStats)))
  | 0, _, _ => none
  | fuel + 1, m, ret =>
    if numOutbound - ret.length ≤ softNum then some (ret, m)
    else
      let weighted_sample := buildWeighted m
      if weighted_sample.length = 0 then some (ret, m)
      else
        match sample_org_by_neighbor_count (oracle fuel) weighted_sample with
        | none => none
        | some prune_org =>
          match lookupA m prune_org with
          | none => none
          | some [] => none
          | some (h :: t) =>
            samplingLoop oracle numOutbound softNum fuel
              (replaceA m prune_org t) (ret ++ [h.1])

/-- The comparator relation under which `sort_by` (a stable sort) orders
a list: `a` may stay before `b` unless the comparator says `Greater`. -/
def uhLe (now : Nat) (a b : NeighborKey × NeighborStats) : Prop :=
  compare_neighbor_uptime_health now a.2 b.2 ≠ Ordering.gt

instance (now : Nat) : DecidableRel (uhLe now) := fun a b => by
  unfold uhLe; infer_instance

/-- `prune_frontier_outbound_orgs` (prune.rs:185-276).  The outer
`Option` models a panic, the inner `Except` the returned `Result`. -/
def prune_frontier_outbound_orgs (db : NeighborKey → Except Unit (Option Nat))
    (oracle : Nat → Nat) (now : Nat) (st : PeerNetwork) (preserve : List Nat) :
    Option (Except Unit (List NeighborKey)) :=
  let num_outbound := count_outbound_conversations st.peers
  if num_outbound ≤ st.soft_num_neighbors then some (Except.ok [])
  else
    match org_neighbor_distribution db st preserve with
    | Except.error e => some (Except.error e)
    | Except.ok org_neighbors =>
      let sorted := org_neighbors.map
        (fun p => (p.1, List.insertionSort (uhLe now) p.2))
      match hardTrimGo st.soft_max_neighbors_per_org num_outbound
          st.soft_num_neighbors sorted [] with
      | none => none
      | some (ret, m) =>
        if num_outbound - ret.length ≤ st.soft_num_neighbors then some (Except.ok ret)
        else
          match samplingLoop oracle num_outbound st.soft_num_neighbors
              ((groupVals m).length + 1) m ret with
          | none => none
          | some (ret2, _) => some (Except.ok ret2)

/-- The grouping loop of `prune_frontier_inbound_ip` (prune.rs:287-306):
bucket every non-preserved inbound connection, keyed by the address
bytes of its `events` key, value `(event_id, neighbor key, stats)`. -/
def ipGroupsGo (peers : List (Nat × Conversation)) (preserve : List Nat)
    (acc : List (Nat × List (Nat × NeighborKey × NeighborStats))) :
    List (NeighborKey × Nat) → List (Nat × List (Nat × NeighborKey × NeighborStats))
  | [] => acc
  | (nk, event_id) :: rest =>
    if event_id ∈ preserve then ipGroupsGo peers preserve acc rest
    else
      match lookupA peers event_id with
      | none => ipGroupsGo peers preserve acc rest
      | some convo =>
        if convo.stats.outbound then ipGroupsGo peers preserve acc rest
        else ipGroupsGo peers preserve
          (insertPush acc nk.addrbytes (event_id, nk, convo.stats)) rest

/-- The first-contact-time comparator of prune.rs:310-320. -/
def compareFirstContact (stats1 stats2 : NeighborStats) : Ordering :=
  if stats1.first_contact_time < stats2.first_contact_time then Ordering.lt
  else if stats1.first_contact_time > stats2.first_contact_time then Ordering.gt
  else Ordering.eq

/-- The stable-sort relation induced by `compareFirstContact`. -/
def fcLe (a b : Nat × NeighborKey × NeighborStats) : Prop :=
  compareFirstContact a.2.2 b.2.2 ≠ Ordering.gt

instance : DecidableRel fcLe := fun a b => by
  unfold fcLe; infer_instance

/-- `prune_frontier_inbound_ip` (prune.rs:281-335). -/
def prune_frontier_inbound_ip (st : PeerNetwork) (preserve : List Nat) :
    List NeighborKey :=
  let num_inbound := num_peers st - count_outbound_conversations st.peers
  if num_inbound ≤ st.soft_num_clients then []
  else
    let ip_neighbor := ipGroupsGo st.peers preserve [] st.events
    let sorted := ip_neighbor.map (fun p => (p.1, List.insertionSort fcLe p.2))
    sorted.foldl
      (fun to_remove p =>
        if st.soft_max_clients_per_host < p.2.length then
          to_remove ++ (p.2.drop st.soft_max_clients_per_host).map (fun t => t.2.1)
        else to_remove)
      []

/-- `PeerNetwork::deregister_neighbor` (in `net/p2p.rs`, outside the
excerpt).  Modelled from the spec: close and remove the connection named
by the neighbor key — drop its `events` entries and the conversations
they point to. -/
def deregister_neighbor (st : PeerNetwork) (nk : NeighborKey) : PeerNetwork :=
  let eids := (st.events.filter (fun p => p.1 = nk)).map Prod.snd
  { st with
    events := st.events.filter (fun p => ¬ p.1 = nk)
    peers := st.peers.filter (fun p => ¬ p.1 ∈ eids) }

/-- Increment a prune counter: insert at `1` when absent, else add one
(prune.rs:370-376 and 389-395; absent is modelled as count `0`). -/
def bumpCount (f : NeighborKey → Nat) (nk : NeighborKey) : NeighborKey → Nat :=
  fun k => if k = nk then f nk + 1 else f k

/-- The inbound half of the orchestrator's eviction loop
(prune.rs:366-377): deregister each pruned key and bump its inbound
counter. -/
def applyInboundPrunes (st : PeerNetwork) (l : List NeighborKey) : PeerNetwork :=
  l.foldl
    (fun s nk =>
      let s' := deregister_neighbor s nk
      { s' with prune_inbound_counts := bumpCount s'.prune_inbound_counts nk })
    st

/-- The outbound half of the orchestrator's eviction loop
(prune.rs:385-396). -/
def applyOutboundPrunes (st : PeerNetwork) (l : List NeighborKey) : PeerNetwork :=
  l.foldl
    (fun s nk =>
      let s' := deregister_neighbor s nk
      { s' with prune_outbound_counts := bumpCount s'.prune_outbound_counts nk })
    st

/-- `prune_frontier` (prune.rs:359-414): run the inbound pruner, apply
its evictions, then run the outbound pruner on the mutated table
(`unwrap_or(vec![])` on its `Result`) and apply those.  Returns the
final state together with both eviction lists; `none` propagates a panic
of the outbound pruner.  The trailing diagnostics dump is read-only and
is not modelled. -/
def prune_frontier (db : NeighborKey → Except Unit (Option Nat))
    (oracle : Nat → Nat) (now : Nat) (st : PeerNetwork) (preserve : List Nat) :
    Option (PeerNetwork × List NeighborKey × List NeighborKey) :=
  let pruned_by_ip := prune_frontier_inbound_ip st preserve
  let st1 := applyInboundPrunes st pruned_by_ip
  match prune_frontier_outbound_orgs db oracle now st1 preserve with
  | none => none
  | some r =>
    let pruned_by_org := match r with
      | Except.ok l => l
      | Except.error _ => []
    some (applyOutboundPrunes st1 pruned_by_org, pruned_by_ip, pruned_by_org)

/-- Key/conversation agreement for one `events` entry: if the event id
resolves then the conversation's `to_neighbor_key` equals the key the
entry is registered under. -/
def convoKeyOk (peers : List (Nat × Conversation)) (p : NeighborKey × Nat) : Prop :=
  ∀ c, lookupA peers p.2 = some c → c.neighborKey = p.1

instance (peers : List (Nat × Conversation)) (p : NeighborKey × Nat) :
    Decidable (convoKeyOk peers p) :=
  match h : lookupA peers p.2 with
  | none => isTrue (by intro c hc; rw [h] at hc; cases hc)
  | some c =>
    if hk : c.neighborKey = p.1 then
      isTrue (by intro c' hc'; rw [h] at hc'; cases hc'; exact hk)
    else isFalse (fun H => hk (H c h))

/-- Well-formedness of the connection table: the `events` map has
distinct keys and distinct event ids, the `peers` map has distinct keys,
and each registered conversation reports the key it is registered
under. -/
@[reducible] def WF (st : PeerNetwork) : Prop :=
  (st.events.map Prod.fst).Nodup ∧ (st.events.map Prod.snd).Nodup ∧
  (st.peers.map Prod.fst).Nodup ∧ ∀ p ∈ st.events, convoKeyOk st.peers p

instance (st : PeerNetwork) : Decidable (WF st) := by
  unfold WF; infer_instance

/-- Does this `events` entry name a live, non-preserved connection of
direction `outb`? -/
def dirKeep (peers : List (Nat × Conversation)) (preserve : List Nat) (outb : Bool)
    (p : NeighborKey × Nat) : Bool :=
  decide (¬ p.2 ∈ preserve) &&
    match lookupA peers p.2 with
    | some c => c.stats.outbound = outb
    | none => false

/-- The number of live, non-preserved connections of a given direction
(the measuring stick of the no-double-eviction claim). -/
def dirCount (st : PeerNetwork) (preserve : List Nat) (outb : Bool) : Nat :=
  (st.events.filter (dirKeep st.peers preserve outb)).length

/-- The entry the organization distribution derives from one `events`
entry: `none` when the entry is preserved, dead, inbound, or its peer is
absent from (or in error in) the database. -/
def selOut (db : NeighborKey → Except Unit (Option Nat))
    (peers : List (Nat × Conversation)) (preserve : List Nat)
    (p : NeighborKey × Nat) : Option (NeighborKey × NeighborStats) :=
  if p.2 ∈ preserve then none
  else
    match lookupA peers p.2 with
    | none => none
    | some c =>
      if c.stats.outbound = false then none
      else
        match db c.neighborKey with
        | Except.ok (some _) => some (c.neighborKey, c.stats)
        | _ => none

/-- All members the organization distribution collects, in `events`
iteration order. -/
def selectedOutbound (db : NeighborKey → Except Unit (Option Nat))
    (peers : List (Nat × Conversation)) (preserve : List Nat)
    (evs : List (NeighborKey × Nat)) : List (NeighborKey × NeighborStats) :=
  evs.filterMap (selOut db peers preserve)

/-- The entry the inbound IP grouping derives from one `events` entry. -/
def selIn (peers : List (Nat × Conversation)) (preserve : List Nat)
    (p : NeighborKey × Nat) : Option (Nat × NeighborKey × NeighborStats) :=
  if p.2 ∈ preserve then none
  else
    match lookupA peers p.2 with
    | none => none
    | some c => if c.stats.outbound then none else some (p.2, p.1, c.stats)

/-- All members the inbound IP grouping collects, in `events` iteration
order. -/
def selectedInbound (peers : List (Nat × Conversation)) (preserve : List Nat)
    (evs : List (NeighborKey × Nat)) : List (Nat × NeighborKey × NeighborStats) :=
  evs.filterMap (selIn peers preserve)

theorem mem_of_lookupA {α β : Type} [DecidableEq α] {l : List (α × β)} {k : α} {v : β}
    (h : lookupA l k = some v) : (k, v) ∈ l := by
  induction l with
  | nil => simp [lookupA] at h
  | cons p t ih =>
    obtain ⟨a, b⟩ := p
    by_cases hak : a = k
    · subst hak
      simp [lookupA] at h
      simp [h]
    · simp [lookupA, hak] at h
      exact List.mem_cons_of_mem _ (ih h)

theorem lookupA_eq_of_mem {α β : Type} [DecidableEq α] {l : List (α × β)} {k : α} {v : β}
    (hm : (k, v) ∈ l) (hnd : (l.map Prod.fst).Nodup) : lookupA l k = some v := by
  induction l with
  | nil => simp at hm
  | cons p t ih =>
    obtain ⟨a, b⟩ := p
    simp only [List.map_cons, List.nodup_cons] at hnd
    rcases List.mem_cons.mp hm with h | h
    · obtain ⟨rfl, rfl⟩ := Prod.mk.inj h
      simp [lookupA]
    · have hak : a ≠ k := by
        intro he
        exact hnd.1 (by
          subst he
          exact List.mem_map.mpr ⟨(a, v), h, rfl⟩)
      simp [lookupA, hak]
      exact ih h hnd.2

theorem lookupA_filter_some {α β : Type} [DecidableEq α] {l : List (α × β)}
    {f : α × β → Bool} {k : α} {v : β} (hnd : (l.map Prod.fst).Nodup)
    (h : lookupA (l.filter f) k = some v) : lookupA l k = some v :=
  lookupA_eq_of_mem (List.mem_of_mem_filter (mem_of_lookupA h)) hnd

theorem lookupA_sublist_some {α β : Type} [DecidableEq α] {l' l : List (α × β)}
    {k : α} {v : β} (hs : l' <+ l) (hnd : (l.map Prod.fst).Nodup)
    (h : lookupA l' k = some v) : lookupA l k = some v :=
  lookupA_eq_of_mem (hs.subset (mem_of_lookupA h)) hnd

theorem groupVals_insertPush {α β : Type} [DecidableEq α]
    (m : List (α × List β)) (k : α) (v : β) :
    groupVals (insertPush m k v) ~ groupVals m ++ [v] := by
  induction m with
  | nil => simp [insertPush, groupVals]
  | cons p t ih =>
    obtain ⟨a, l⟩ := p
    by_cases hak : a = k
    · subst hak
      simp only [insertPush, if_pos rfl, groupVals, List.append_assoc]
      exact ((List.perm_append_singleton v (groupVals t)).symm).append_left l
    · simp only [insertPush, if_neg hak, groupVals]
      calc l ++ groupVals (insertPush t k v)
          ~ l ++ (groupVals t ++ [v]) := (ih.append_left l)
        _ = (l ++ groupVals t) ++ [v] := by rw [List.append_assoc]

theorem removeFrontN_eq_drop {α : Type} {n : Nat} {l l' : List α}
    (h : removeFrontN n l = some l') : n ≤ l.length ∧ l' = l.drop n := by
  induction n generalizing l with
  | zero =>
    simp [removeFrontN] at h
    simp [h.symm]
  | succ k ih =>
    cases l with
    | nil => simp [removeFrontN] at h
    | cons a t =>
      have := ih (l := t) (by simpa [removeFrontN] using h)
      exact ⟨by simpa using Nat.succ_le_succ this.1, by simpa using this.2⟩

theorem replaceA_groupVals_perm {α β : Type} [DecidableEq α]
    {m : List (α × List β)} {k : α} {l : List β} (l' : List β)
    (h : lookupA m k = some l) :
    groupVals (replaceA m k l') ++ l ~ groupVals m ++ l' := by
  induction m with
  | nil => simp [lookupA] at h
  | cons p t ih =>
    obtain ⟨a, b⟩ := p
    by_cases hak : a = k
    · subst hak
      have hb : b = l := by simpa [lookupA] using h
      subst hb
      simp only [replaceA, if_pos rfl, groupVals]
      calc (l' ++ groupVals t) ++ b
          ~ b ++ (l' ++ groupVals t) := List.perm_append_comm
        _ ~ b ++ (groupVals t ++ l') := (List.perm_append_comm).append_left b
        _ = (b ++ groupVals t) ++ l' := by rw [List.append_assoc]
    · simp only [lookupA, if_neg hak] at h
      simp only [replaceA, if_neg hak, groupVals, List.append_assoc]
      exact (ih h).append_left b

theorem groupVals_map_sort_perm {α β : Type} (r : β → β → Prop) [DecidableRel r]
    (m : List (α × List β)) :
    groupVals (m.map (fun p => (p.1, List.insertionSort r p.2))) ~ groupVals m := by
  induction m with
  | nil => simp [groupVals]
  | cons p t ih =>
    simp only [List.map_cons, groupVals]
    exact (List.perm_insertionSort r p.2).append ih


theorem orgDistGo_ok_perm {db : NeighborKey → Except Unit (Option Nat)}
    {peers : List (Nat × Conversation)} {preserve : List Nat}
    {acc m : List (Nat × List (NeighborKey × NeighborStats))}
    {evs : List (NeighborKey × Nat)}
    (h : orgDistGo db peers preserve acc evs = Except.ok m) :
    groupVals m ~ groupVals acc ++ selectedOutbound db peers preserve evs := by
  induction evs generalizing acc with
  | nil =>
    simp only [orgDistGo, Except.ok.injEq] at h
    subst h
    simp [selectedOutbound]
  | cons e rest ih =>
    obtain ⟨nk, eid⟩ := e
    simp only [orgDistGo] at h
    by_cases hp : eid ∈ preserve
    · have hsel : selOut db peers preserve (nk, eid) = none := by
        simp [selOut, hp]
      simp only [if_pos hp] at h
      simp only [selectedOutbound, List.filterMap_cons, hsel]
      exact ih h
    · simp only [if_neg hp] at h
      cases hl : lookupA peers eid with
      | none =>
        have hsel : selOut db peers preserve (nk, eid) = none := by
          simp [selOut, hp, hl]
        simp only [hl] at h
        simp only [selectedOutbound, List.filterMap_cons, hsel]
        exact ih h
      | some c =>
        simp only [hl] at h
        by_cases hob : c.stats.outbound = false
        · have hsel : selOut db peers preserve (nk, eid) = none := by
            simp [selOut, hp, hl, hob]
          simp only [if_pos hob] at h
          simp only [selectedOutbound, List.filterMap_cons, hsel]
          exact ih h
        · simp only [if_neg hob] at h
          cases hdb : db c.neighborKey with
          | error e' =>
            simp only [hdb] at h
            cases h
          | ok o =>
            cases o with
            | none =>
              have hsel : selOut db peers preserve (nk, eid) = none := by
                simp [selOut, hp, hl, hob, hdb]
              simp only [hdb] at h
              simp only [selectedOutbound, List.filterMap_cons, hsel]
              exact ih h
            | some org =>
              have hsel : selOut db peers preserve (nk, eid) =
                  some (c.neighborKey, c.stats) := by
                simp [selOut, hp, hl, hob, hdb]
              simp only [hdb] at h
              simp only [selectedOutbound, List.filterMap_cons, hsel]
              have := ih h
              calc groupVals m
                  ~ groupVals (insertPush acc org (c.neighborKey, c.stats)) ++
                      List.filterMap (selOut db peers preserve) rest := this
                _ ~ (groupVals acc ++ [(c.neighborKey, c.stats)]) ++
                      List.filterMap (selOut db peers preserve) rest :=
                    (groupVals_insertPush acc org _).append_right _
                _ = groupVals acc ++ ((c.neighborKey, c.stats) ::
                      List.filterMap (selOut db peers preserve) rest) := by
                    rw [List.append_assoc]; rfl

theorem ipGroupsGo_perm {peers : List (Nat × Conversation)} {preserve : List Nat}
    {acc : List (Nat × List (Nat × NeighborKey × NeighborStats))}
    {evs : List (NeighborKey × Nat)} :
    groupVals (ipGroupsGo peers preserve acc evs) ~
      groupVals acc ++ selectedInbound peers preserve evs := by
  induction evs generalizing acc with
  | nil => simp [ipGroupsGo, selectedInbound]
  | cons e rest ih =>
    obtain ⟨nk, eid⟩ := e
    simp only [ipGroupsGo]
    by_cases hp : eid ∈ preserve
    · have hsel : selIn peers preserve (nk, eid) = none := by simp [selIn, hp]
      simp only [if_pos hp, selectedInbound, List.filterMap_cons, hsel]
      exact ih
    · simp only [if_neg hp]
      cases hl : lookupA peers eid with
      | none =>
        have hsel : selIn peers preserve (nk, eid) = none := by simp [selIn, hp, hl]
        simp only [selectedInbound, List.filterMap_cons, hsel]
        exact ih
      | some c =>
        by_cases hob : c.stats.outbound
        · have hsel : selIn peers preserve (nk, eid) = none := by
            simp [selIn, hp, hl, hob]
          simp only [if_pos hob, selectedInbound, List.filterMap_cons, hsel]
          exact ih
        · have hsel : selIn peers preserve (nk, eid) = some (eid, nk, c.stats) := by
            simp [selIn, hp, hl, hob]
          simp only [if_neg hob, selectedInbound, List.filterMap_cons, hsel]
          calc groupVals (ipGroupsGo peers preserve
                  (insertPush acc nk.addrbytes (eid, nk, c.stats)) rest)
              ~ groupVals (insertPush acc nk.addrbytes (eid, nk, c.stats)) ++
                  List.filterMap (selIn peers preserve) rest := ih
            _ ~ (groupVals acc ++ [(eid, nk, c.stats)]) ++
                  List.filterMap (selIn peers preserve) rest :=
                (groupVals_insertPush acc _ _).append_right _
            _ = groupVals acc ++ ((eid, nk, c.stats) ::
                  List.filterMap (selIn peers preserve) rest) := by
                rw [List.append_assoc]; rfl

theorem selOut_eq_some {db : NeighborKey → Except Unit (Option Nat)}
    {peers : List (Nat × Conversation)} {preserve : List Nat}
    {p : NeighborKey × Nat} {x : NeighborKey × NeighborStats}
    (h : selOut db peers preserve p = some x) :
    ¬ p.2 ∈ preserve ∧ ∃ c, lookupA peers p.2 = some c ∧
      c.stats.outbound = true ∧ x = (c.neighborKey, c.stats) ∧
      ∃ o, db c.neighborKey = Except.ok (some o) := by
  by_cases hp : p.2 ∈ preserve
  · simp [selOut, hp] at h
  · refine ⟨hp, ?_⟩
    cases hl : lookupA peers p.2 with
    | none => simp [selOut, hp, hl] at h
    | some c =>
      by_cases hob : c.stats.outbound = false
      · simp [selOut, hp, hl, hob] at h
      · cases hdb : db c.neighborKey with
        | error e' => simp [selOut, hp, hl, hob, hdb] at h
        | ok o =>
          cases o with
          | none => simp [selOut, hp, hl, hob, hdb] at h
          | some org =>
            simp only [selOut, if_neg hp, hl, if_neg hob, hdb,
              Option.some.injEq] at h
            exact ⟨c, rfl, by revert hob; cases c.stats.outbound <;> simp,
              h.symm, org, hdb⟩

theorem selIn_eq_some {peers : List (Nat × Conversation)} {preserve : List Nat}
    {p : NeighborKey × Nat} {x : Nat × NeighborKey × NeighborStats}
    (h : selIn peers preserve p = some x) :
    ¬ p.2 ∈ preserve ∧ ∃ c, lookupA peers p.2 = some c ∧
      c.stats.outbound = false ∧ x = (p.2, p.1, c.stats) := by
  by_cases hp : p.2 ∈ preserve
  · simp [selIn, hp] at h
  · refine ⟨hp, ?_⟩
    cases hl : lookupA peers p.2 with
    | none => simp [selIn, hp, hl] at h
    | some c =>
      by_cases hob : c.stats.outbound
      · simp [selIn, hp, hl, hob] at h
      · simp only [selIn, if_neg hp, hl, if_neg hob, Option.some.injEq] at h
        exact ⟨c, rfl, by revert hob; cases c.stats.outbound <;> simp, h.symm⟩

theorem selectedOutbound_keys_sublist {db : NeighborKey → Except Unit (Option Nat)}
    {peers : List (Nat × Conversation)} {preserve : List Nat}
    {evs : List (NeighborKey × Nat)}
    (hck : ∀ p ∈ evs, convoKeyOk peers p) :
    (selectedOutbound db peers preserve evs).map Prod.fst <+ evs.map Prod.fst := by
  induction evs with
  | nil => simp [selectedOutbound]
  | cons e rest ih =>
    have hrest := ih (fun p hp => hck p (List.mem_cons_of_mem _ hp))
    have hhead := hck e (List.mem_cons_self _ _)
    simp only [selectedOutbound, List.filterMap_cons, List.map_cons] at *
    cases hso : selOut db peers preserve e with
    | none => exact hrest.cons e.1
    | some x =>
      obtain ⟨_, c, hl, _, hx, _⟩ := selOut_eq_some hso
      have hx1 : x.1 = e.1 := by rw [hx]; exact hhead c hl
      simp only [List.map_cons, hx1]
      exact hrest.cons₂ e.1

theorem selectedInbound_keys_sublist {peers : List (Nat × Conversation)}
    {preserve : List Nat} {evs : List (NeighborKey × Nat)} :
    (selectedInbound peers preserve evs).map (fun t => t.2.1) <+ evs.map Prod.fst := by
  induction evs with
  | nil => simp [selectedInbound]
  | cons e rest ih =>
    simp only [selectedInbound, List.filterMap_cons, List.map_cons] at *
    cases hso : selIn peers preserve e with
    | none => exact ih.cons e.1
    | some x =>
      obtain ⟨_, c, _, _, hx⟩ := selIn_eq_some hso
      have hx1 : x.2.1 = e.1 := by rw [hx]
      simp only [List.map_cons, hx1]
      exact ih.cons₂ e.1

theorem selectedOutbound_length_le {db : NeighborKey → Except Unit (Option Nat)}
    {peers : List (Nat × Conversation)} {preserve : List Nat}
    {evs : List (NeighborKey × Nat)} :
    (selectedOutbound db peers preserve evs).length ≤
      (evs.filter (dirKeep peers preserve true)).length := by
  induction evs with
  | nil => simp [selectedOutbound]
  | cons e rest ih =>
    simp only [selectedOutbound, List.filterMap_cons] at *
    cases hso : selOut db peers preserve e with
    | none =>
      cases hdk : dirKeep peers preserve true e with
      | false => simpa [List.filter_cons, hdk] using ih
      | true =>
        simp only [List.filter_cons, hdk, List.length_cons]
        exact Nat.le_succ_of_le ih
    | some x =>
      obtain ⟨hp, c, hl, hob, _, _⟩ := selOut_eq_some hso
      have hdk : dirKeep peers preserve true e = true := by
        simp [dirKeep, hp, hl, hob]
      simp only [List.filter_cons, hdk, List.length_cons]
      exact Nat.succ_le_succ ih

theorem selectedInbound_length_le {peers : List (Nat × Conversation)}
    {preserve : List Nat} {evs : List (NeighborKey × Nat)} :
    (selectedInbound peers preserve evs).length ≤
      (evs.filter (dirKeep peers preserve false)).length := by
  induction evs with
  | nil => simp [selectedInbound]
  | cons e rest ih =>
    simp only [selectedInbound, List.filterMap_cons] at *
    cases hso : selIn peers preserve e with
    | none =>
      cases hdk : dirKeep peers preserve false e with
      | false => simpa [List.filter_cons, hdk] using ih
      | true =>
        simp only [List.filter_cons, hdk, List.length_cons]
        exact Nat.le_succ_of_le ih
    | some x =>
      obtain ⟨hp, c, hl, hob, _⟩ := selIn_eq_some hso
      have hdk : dirKeep peers preserve false e = true := by
        simp [dirKeep, hp, hl, hob]
      simp only [List.filter_cons, hdk, List.length_cons]
      exact Nat.succ_le_succ ih

theorem subperm_append {α : Type} {l₁ l₂ r₁ r₂ : List α}
    (h1 : l₁ <+~ l₂) (h2 : r₁ <+~ r₂) : l₁ ++ r₁ <+~ l₂ ++ r₂ :=
  ((List.subperm_append_left l₁).2 h2).trans ((List.subperm_append_right r₂).2 h1)

theorem take_append_drop_length {α : Type} (n : Nat) (l : List α) :
    l.take n ++ l.drop (l.take n).length = l := by
  by_cases h : n ≤ l.length
  · rw [List.length_take, Nat.min_eq_left h, List.take_append_drop]
  · rw [List.take_of_length_le (Nat.le_of_not_le h), List.drop_length,
      List.append_nil]

theorem drop_add_sublist {α : Type} (a b : Nat) (l : List α) :
    l.drop (a + b) <+ l.drop b := by
  rw [Nat.add_comm, ← List.drop_drop]
  exact List.drop_sublist _ _

theorem hardTrimPush_shape (numOutbound softNum : Nat) :
    ∀ (infos : List (NeighborKey × NeighborStats)) (c : Nat) (ret : List NeighborKey),
      ∃ p, hardTrimPush numOutbound softNum infos c ret =
        ret ++ (infos.take p).map Prod.fst := by
  intro infos
  induction infos with
  | nil =>
    intro c ret
    cases c with
    | zero => exact ⟨0, by simp [hardTrimPush]⟩
    | succ k => exact ⟨0, by simp [hardTrimPush]⟩
  | cons hd rest ih =>
    intro c ret
    cases c with
    | zero => exact ⟨0, by simp [hardTrimPush]⟩
    | succ k =>
      obtain ⟨nk, s⟩ := hd
      by_cases hbr : numOutbound - (ret ++ [nk]).length ≤ softNum
      · refine ⟨1, ?_⟩
        simp only [hardTrimPush]
        rw [if_pos hbr]
        simp
      · obtain ⟨p', hp'⟩ := ih k (ret ++ [nk])
        refine ⟨p' + 1, ?_⟩
        simp only [hardTrimPush]
        rw [if_neg hbr, hp', List.take_succ_cons, List.map_cons,
          List.append_assoc]
        rfl

theorem hardTrimGo_le (cap numOutbound softNum : Nat) :
    ∀ (m : List (Nat × List (NeighborKey × NeighborStats))) (ret retF : List NeighborKey)
      (mF : List (Nat × List (NeighborKey × NeighborStats))),
      hardTrimGo cap numOutbound softNum m ret = some (retF, mF) →
      (↑retF + ↑((groupVals mF).map Prod.fst) : Multiset NeighborKey) ≤
        ↑ret + ↑((groupVals m).map Prod.fst) := by
  intro m
  induction m with
  | nil =>
    intro ret retF mF h
    simp only [hardTrimGo, Option.some.injEq, Prod.mk.injEq] at h
    obtain ⟨h1, h2⟩ := h
    subst h1; subst h2
    simp [groupVals]
  | cons p rest ih =>
    intro ret retF mF h
    obtain ⟨org, infos⟩ := p
    by_cases hcap : cap < infos.length
    · simp only [hardTrimGo, if_pos hcap] at h
      obtain ⟨q, hq⟩ := hardTrimPush_shape numOutbound softNum infos
        (infos.length - cap) ret
      rw [hq] at h
      cases hrm : removeFrontN (ret ++ (infos.take q).map Prod.fst).length infos with
      | none => rw [hrm] at h; cases h
      | some infos' =>
        rw [hrm] at h
        cases hrec : hardTrimGo cap numOutbound softNum rest
            (ret ++ (infos.take q).map Prod.fst) with
        | none => rw [hrec] at h; cases h
        | some pr =>
          obtain ⟨retR, restR⟩ := pr
          rw [hrec] at h
          simp only [Option.some.injEq, Prod.mk.injEq] at h
          obtain ⟨h1, h2⟩ := h
          rw [← h1, ← h2]
          obtain ⟨hlen, hdrop⟩ := removeFrontN_eq_drop hrm
          have hih := ih (ret ++ (infos.take q).map Prod.fst) retR restR hrec
          -- abbreviations as multisets
          have hI' : (↑(infos'.map Prod.fst) : Multiset NeighborKey) ≤
              ↑((infos.drop ((infos.take q).length)).map Prod.fst) := by
            rw [hdrop]
            refine Multiset.coe_le.2 (List.Sublist.subperm (List.Sublist.map _ ?_))
            rw [List.length_append]
            exact drop_add_sublist ret.length ((infos.take q).map Prod.fst).length
              infos |>.trans (by rw [List.length_map])
          have hTD : (↑((infos.take q).map Prod.fst) : Multiset NeighborKey) +
              ↑((infos.drop ((infos.take q).length)).map Prod.fst) =
              ↑(infos.map Prod.fst) := by
            rw [Multiset.coe_add, ← List.map_append, take_append_drop_length]
          calc (↑retR + ↑((groupVals ((org, infos') :: restR)).map Prod.fst) :
                Multiset NeighborKey)
              = ↑retR + (↑(infos'.map Prod.fst) +
                  ↑((groupVals restR).map Prod.fst)) := by
                simp only [groupVals, List.map_append, ← Multiset.coe_add]
            _ = (↑retR + ↑((groupVals restR).map Prod.fst)) +
                  ↑(infos'.map Prod.fst) := by abel
            _ ≤ (↑(ret ++ (infos.take q).map Prod.fst) +
                  ↑((groupVals rest).map Prod.fst)) + ↑(infos'.map Prod.fst) :=
                add_le_add_right hih _
            _ ≤ (↑(ret ++ (infos.take q).map Prod.fst) +
                  ↑((groupVals rest).map Prod.fst)) +
                  ↑((infos.drop ((infos.take q).length)).map Prod.fst) :=
                add_le_add_left hI' _
            _ = ↑ret + (↑((infos.take q).map Prod.fst) +
                  ↑((infos.drop ((infos.take q).length)).map Prod.fst)) +
                  ↑((groupVals rest).map Prod.fst) := by
                rw [← Multiset.coe_add]; abel
            _ = ↑ret + ↑(infos.map Prod.fst) + ↑((groupVals rest).map Prod.fst) := by
                rw [hTD]
            _ = ↑ret + ↑((groupVals ((org, infos) :: rest)).map Prod.fst) := by
                simp only [groupVals, List.map_append, ← Multiset.coe_add]
                abel
    · simp only [hardTrimGo, if_neg hcap] at h
      cases hrec : hardTrimGo cap numOutbound softNum rest ret with
      | none => rw [hrec] at h; cases h
      | some pr =>
        obtain ⟨retR, restR⟩ := pr
        rw [hrec] at h
        simp only [Option.some.injEq, Prod.mk.injEq] at h
        obtain ⟨h1, h2⟩ := h
        rw [← h1, ← h2]
        have hih := ih ret retR restR hrec
        calc (↑retR + ↑((groupVals ((org, infos) :: restR)).map Prod.fst) :
              Multiset NeighborKey)
            = (↑retR + ↑((groupVals restR).map Prod.fst)) +
                ↑(infos.map Prod.fst) := by
              simp only [groupVals, List.map_append, ← Multiset.coe_add]
              abel
          _ ≤ (↑ret + ↑((groupVals rest).map Prod.fst)) + ↑(infos.map Prod.fst) :=
              add_le_add_right hih _
          _ = ↑ret + ↑((groupVals ((org, infos) :: rest)).map Prod.fst) := by
              simp only [groupVals, List.map_append, ← Multiset.coe_add]
              abel

theorem samplingLoop_eq (oracle : Nat → Nat) (numOutbound softNum : Nat) :
    ∀ (fuel : Nat) (m : List (Nat × List (NeighborKey × NeighborStats)))
      (ret ret2 : List NeighborKey)
      (m2 : List (Nat × List (NeighborKey × NeighborStats))),
      samplingLoop oracle numOutbound softNum fuel m ret = some (ret2, m2) →
      (↑ret2 + ↑((groupVals m2).map Prod.fst) : Multiset NeighborKey) =
        ↑ret + ↑((groupVals m).map Prod.fst) := by
  intro fuel
  induction fuel with
  | zero => intro m ret ret2 m2 h; simp [samplingLoop] at h
  | succ k ih =>
    intro m ret ret2 m2 h
    simp only [samplingLoop] at h
    by_cases hdone : numOutbound - ret.length ≤ softNum
    · simp only [if_pos hdone, Option.some.injEq, Prod.mk.injEq] at h
      obtain ⟨h1, h2⟩ := h
      subst h1; subst h2; rfl
    · simp only [if_neg hdone] at h
      by_cases hws : (buildWeighted m).length = 0
      · simp only [if_pos hws, Option.some.injEq, Prod.mk.injEq] at h
        obtain ⟨h1, h2⟩ := h
        subst h1; subst h2; rfl
      · simp only [if_neg hws] at h
        cases hs : sample_org_by_neighbor_count (oracle k) (buildWeighted m) with
        | none => simp only [hs] at h; cases h
        | some prune_org =>
          simp only [hs] at h
          cases hlk : lookupA m prune_org with
          | none => simp only [hlk] at h; cases h
          | some infos =>
            simp only [hlk] at h
            cases infos with
            | nil => cases h
            | cons hd tl =>
              have hrec := ih (replaceA m prune_org tl) (ret ++ [hd.1]) ret2 m2 h
              have hperm := replaceA_groupVals_perm (m := m) (k := prune_org)
                (l := hd :: tl) tl hlk
              have hperm' : ((groupVals (replaceA m prune_org tl)).map Prod.fst ++
                  (hd :: tl).map Prod.fst) ~
                  ((groupVals m).map Prod.fst ++ tl.map Prod.fst) := by
                rw [← List.map_append, ← List.map_append]
                exact hperm.map Prod.fst
              have hcons : (↑((hd :: tl).map Prod.fst) : Multiset NeighborKey) =
                  {hd.1} + ↑(tl.map Prod.fst) := by
                simp only [List.map_cons, Multiset.singleton_add, Multiset.cons_coe]
              have hms := Multiset.coe_eq_coe.2 hperm'
              rw [← Multiset.coe_add, ← Multiset.coe_add, hcons, ← add_assoc,
                add_comm (↑((groupVals (replaceA m prune_org tl)).map Prod.fst) :
                  Multiset NeighborKey) ({hd.1} : Multiset NeighborKey)] at hms
              have hcancel : ({hd.1} : Multiset NeighborKey) +
                  ↑((groupVals (replaceA m prune_org tl)).map Prod.fst) =
                  ↑((groupVals m).map Prod.fst) := add_right_cancel hms
              calc (↑ret2 + ↑((groupVals m2).map Prod.fst) : Multiset NeighborKey)
                  = ↑(ret ++ [hd.1]) +
                      ↑((groupVals (replaceA m prune_org tl)).map Prod.fst) := hrec
                _ = ↑ret + ({hd.1} +
                      ↑((groupVals (replaceA m prune_org tl)).map Prod.fst)) := by
                    rw [← Multiset.coe_add, Multiset.coe_singleton, add_assoc]
                _ = ↑ret + ↑((groupVals m).map Prod.fst) := by rw [hcancel]

theorem pruneOut_keys_le {db : NeighborKey → Except Unit (Option Nat)}
    {oracle : Nat → Nat} {now : Nat} {st : PeerNetwork} {preserve : List Nat}
    {l : List NeighborKey}
    (h : prune_frontier_outbound_orgs db oracle now st preserve =
      some (Except.ok l)) :
    (↑l : Multiset NeighborKey) ≤
      ↑((selectedOutbound db st.peers preserve st.events).map Prod.fst) := by
  unfold prune_frontier_outbound_orgs at h
  by_cases hfast : count_outbound_conversations st.peers ≤ st.soft_num_neighbors
  · simp only [if_pos hfast, Option.some.injEq, Except.ok.injEq] at h
    subst h
    simp
  · simp only [if_neg hfast] at h
    cases hod : org_neighbor_distribution db st preserve with
    | error e => simp only [hod] at h; simp at h
    | ok dist =>
      simp only [hod] at h
      have hsel : groupVals dist ~ selectedOutbound db st.peers preserve st.events := by
        have := orgDistGo_ok_perm hod
        simpa [groupVals] using this
      cases hht : hardTrimGo st.soft_max_neighbors_per_org
          (count_outbound_conversations st.peers) st.soft_num_neighbors
          (dist.map (fun p => (p.1, List.insertionSort (uhLe now) p.2))) [] with
      | none => simp only [hht] at h; cases h
      | some pr =>
        obtain ⟨ret, m⟩ := pr
        simp only [hht] at h
        have hle1 := hardTrimGo_le st.soft_max_neighbors_per_org
          (count_outbound_conversations st.peers) st.soft_num_neighbors
          (dist.map (fun p => (p.1, List.insertionSort (uhLe now) p.2)))
          [] ret m hht
        have hsort : groupVals (dist.map
            (fun p => (p.1, List.insertionSort (uhLe now) p.2))) ~ groupVals dist :=
          groupVals_map_sort_perm _ dist
        have hkeys : (↑((groupVals (dist.map
            (fun p => (p.1, List.insertionSort (uhLe now) p.2)))).map Prod.fst) :
            Multiset NeighborKey) =
            ↑((selectedOutbound db st.peers preserve st.events).map Prod.fst) :=
          Multiset.coe_eq_coe.2 ((hsort.trans hsel).map Prod.fst)
        have hle2 : (↑ret + ↑((groupVals m).map Prod.fst) : Multiset NeighborKey) ≤
            ↑((selectedOutbound db st.peers preserve st.events).map Prod.fst) := by
          calc (↑ret + ↑((groupVals m).map Prod.fst) : Multiset NeighborKey)
              ≤ ↑([] : List NeighborKey) + ↑((groupVals (dist.map
                  (fun p => (p.1, List.insertionSort (uhLe now) p.2)))).map
                    Prod.fst) := hle1
            _ = ↑((selectedOutbound db st.peers preserve st.events).map Prod.fst) := by
                rw [hkeys]; simp
        by_cases hdone : count_outbound_conversations st.peers - ret.length ≤
            st.soft_num_neighbors
        · simp only [if_pos hdone, Option.some.injEq, Except.ok.injEq] at h
          subst h
          exact le_trans (self_le_add_right _ _) hle2
        · simp only [if_neg hdone] at h
          cases hsl : samplingLoop oracle (count_outbound_conversations st.peers)
              st.soft_num_neighbors ((groupVals m).length + 1) m ret with
          | none => simp only [hsl] at h; cases h
          | some pr2 =>
            obtain ⟨ret2, m2⟩ := pr2
            simp only [hsl, Option.some.injEq, Except.ok.injEq] at h
            subst h
            have heq := samplingLoop_eq oracle (count_outbound_conversations st.peers)
              st.soft_num_neighbors ((groupVals m).length + 1) m ret ret2 m2 hsl
            calc (↑ret2 : Multiset NeighborKey)
                ≤ ↑ret2 + ↑((groupVals m2).map Prod.fst) := self_le_add_right _ _
              _ = ↑ret + ↑((groupVals m).map Prod.fst) := heq
              _ ≤ _ := hle2

theorem foldl_trim_eq (cap : Nat) (f : Nat × NeighborKey × NeighborStats → NeighborKey) :
    ∀ (gs : List (Nat × List (Nat × NeighborKey × NeighborStats)))
      (acc : List NeighborKey),
      gs.foldl (fun tr p =>
          if cap < p.2.length then tr ++ (p.2.drop cap).map f else tr) acc =
        acc ++ (gs.map (fun p =>
          if cap < p.2.length then (p.2.drop cap).map f else [])).join := by
  intro gs
  induction gs with
  | nil => intro acc; simp
  | cons p t ih =>
    intro acc
    by_cases hc : cap < p.2.length
    · simp only [List.foldl_cons, if_pos hc, List.map_cons, List.join_cons, ih,
        List.append_assoc]
    · simp only [List.foldl_cons, if_neg hc, List.map_cons, List.join_cons, ih,
        List.nil_append]

theorem join_drop_le (cap : Nat) (f : Nat × NeighborKey × NeighborStats → NeighborKey) :
    ∀ gs : List (Nat × List (Nat × NeighborKey × NeighborStats)),
      (↑((gs.map (fun p =>
          if cap < p.2.length then (p.2.drop cap).map f else [])).join) :
        Multiset NeighborKey) ≤ ↑((groupVals gs).map f) := by
  intro gs
  induction gs with
  | nil => simp [groupVals]
  | cons p t ih =>
    have hcomp : (↑(if cap < p.2.length then (p.2.drop cap).map f else []) :
        Multiset NeighborKey) ≤ ↑(p.2.map f) := by
      by_cases hc : cap < p.2.length
      · rw [if_pos hc]
        exact Multiset.coe_le.2 (((p.2.drop_sublist cap).map f).subperm)
      · rw [if_neg hc]
        simp
    calc (↑(((p :: t).map (fun p =>
          if cap < p.2.length then (p.2.drop cap).map f else [])).join) :
          Multiset NeighborKey)
        = ↑(if cap < p.2.length then (p.2.drop cap).map f else []) +
            ↑((t.map (fun p =>
              if cap < p.2.length then (p.2.drop cap).map f else [])).join) := by
          simp only [List.map_cons, List.join_cons, ← Multiset.coe_add]
      _ ≤ ↑(p.2.map f) + ↑((groupVals t).map f) := add_le_add hcomp ih
      _ = ↑((groupVals (p :: t)).map f) := by
          simp only [groupVals, List.map_append, ← Multiset.coe_add]

theorem pruneIn_keys_le (st : PeerNetwork) (preserve : List Nat) :
    (↑(prune_frontier_inbound_ip st preserve) : Multiset NeighborKey) ≤
      ↑((selectedInbound st.peers preserve st.events).map (fun t => t.2.1)) := by
  unfold prune_frontier_inbound_ip
  by_cases hfast : num_peers st - count_outbound_conversations st.peers ≤
      st.soft_num_clients
  · simp [hfast]
  · simp only [if_neg hfast]
    rw [foldl_trim_eq]
    simp only [List.nil_append]
    have hjoin := join_drop_le st.soft_max_clients_per_host (fun t => t.2.1)
      ((ipGroupsGo st.peers preserve [] st.events).map
        (fun p => (p.1, List.insertionSort fcLe p.2)))
    have hperm : groupVals ((ipGroupsGo st.peers preserve [] st.events).map
        (fun p => (p.1, List.insertionSort fcLe p.2))) ~
        selectedInbound st.peers preserve st.events := by
      refine (groupVals_map_sort_perm _ _).trans ?_
      have := @ipGroupsGo_perm st.peers preserve [] st.events
      simpa [groupVals] using this
    calc (↑((((ipGroupsGo st.peers preserve [] st.events).map
          (fun p => (p.1, List.insertionSort fcLe p.2))).map (fun p =>
            if st.soft_max_clients_per_host < p.2.length then
              (p.2.drop st.soft_max_clients_per_host).map (fun t => t.2.1)
            else [])).join) : Multiset NeighborKey)
        ≤ ↑((groupVals ((ipGroupsGo st.peers preserve [] st.events).map
            (fun p => (p.1, List.insertionSort fcLe p.2)))).map (fun t => t.2.1)) :=
          hjoin
      _ = ↑((selectedInbound st.peers preserve st.events).map (fun t => t.2.1)) :=
          Multiset.coe_eq_coe.2 (hperm.map _)

theorem sublist_filter_of_forall {α : Type} {l₀ l : List α} {P : α → Bool}
    (hs : l₀ <+ l) (h : ∀ x ∈ l₀, P x = true) : l₀ <+ l.filter P := by
  induction hs with
  | slnil => simp
  | cons a hs ih =>
    by_cases hPa : P a = true
    · simpa [List.filter_cons, hPa] using (ih h).cons a
    · simpa [List.filter_cons, hPa] using ih h
  | cons₂ a hs ih =>
    have hPa : P a = true := h a (List.mem_cons_self _ _)
    simpa [List.filter_cons, hPa] using
      (ih (fun x hx => h x (List.mem_cons_of_mem _ hx))).cons₂ a

theorem lookupA_unique {α β : Type} [DecidableEq α] {l : List (α × β)} {k : α}
    {v1 v2 : β} (hnd : (l.map Prod.fst).Nodup) (h1 : (k, v1) ∈ l)
    (h2 : (k, v2) ∈ l) : v1 = v2 := by
  have e1 := lookupA_eq_of_mem h1 hnd
  have e2 := lookupA_eq_of_mem h2 hnd
  rw [e1] at e2
  exact Option.some.inj e2

theorem deregister_events_sublist (st : PeerNetwork) (nk : NeighborKey) :
    (deregister_neighbor st nk).events <+ st.events :=
  List.filter_sublist st.events

theorem deregister_peers_sublist (st : PeerNetwork) (nk : NeighborKey) :
    (deregister_neighbor st nk).peers <+ st.peers :=
  List.filter_sublist st.peers

theorem deregister_counts (st : PeerNetwork) (nk : NeighborKey) :
    (deregister_neighbor st nk).prune_inbound_counts = st.prune_inbound_counts ∧
    (deregister_neighbor st nk).prune_outbound_counts = st.prune_outbound_counts ∧
    (deregister_neighbor st nk).soft_num_neighbors = st.soft_num_neighbors ∧
    (deregister_neighbor st nk).soft_num_clients = st.soft_num_clients :=
  ⟨rfl, rfl, rfl, rfl⟩

theorem WF_deregister {st : PeerNetwork} (hWF : WF st) (nk : NeighborKey) :
    WF (deregister_neighbor st nk) := by
  obtain ⟨h1, h2, h3, h4⟩ := hWF
  refine ⟨?_, ?_, ?_, ?_⟩
  · exact h1.sublist ((deregister_events_sublist st nk).map Prod.fst)
  · exact h2.sublist ((deregister_events_sublist st nk).map Prod.snd)
  · exact h3.sublist ((deregister_peers_sublist st nk).map Prod.fst)
  · intro p hp c hc
    have hp' : p ∈ st.events := (deregister_events_sublist st nk).subset hp
    have hc' : lookupA st.peers p.2 = some c :=
      lookupA_sublist_some (deregister_peers_sublist st nk) h3 hc
    exact h4 p hp' c hc'

theorem applyInboundPrunes_events_sublist (l : List NeighborKey) :
    ∀ st : PeerNetwork, (applyInboundPrunes st l).events <+ st.events := by
  induction l with
  | nil => intro st; exact List.Sublist.refl _
  | cons nk t ih =>
    intro st
    simp only [applyInboundPrunes, List.foldl_cons]
    exact (ih _).trans (deregister_events_sublist st nk)

theorem applyInboundPrunes_peers_sublist (l : List NeighborKey) :
    ∀ st : PeerNetwork, (applyInboundPrunes st l).peers <+ st.peers := by
  induction l with
  | nil => intro st; exact List.Sublist.refl _
  | cons nk t ih =>
    intro st
    simp only [applyInboundPrunes, List.foldl_cons]
    exact (ih _).trans (deregister_peers_sublist st nk)

theorem WF_applyInboundPrunes (l : List NeighborKey) :
    ∀ st : PeerNetwork, WF st → WF (applyInboundPrunes st l) := by
  induction l with
  | nil => intro st h; exact h
  | cons nk t ih =>
    intro st h
    simp only [applyInboundPrunes, List.foldl_cons]
    exact ih _ (WF_deregister h nk)

theorem applyInboundPrunes_in_counts (l : List NeighborKey) :
    ∀ (st : PeerNetwork) (k : NeighborKey),
      (applyInboundPrunes st l).prune_inbound_counts k =
        st.prune_inbound_counts k + l.count k := by
  induction l with
  | nil => intro st k; simp [applyInboundPrunes]
  | cons nk t ih =>
    intro st k
    simp only [applyInboundPrunes, List.foldl_cons] at *
    rw [ih]
    show bumpCount (deregister_neighbor st nk).prune_inbound_counts nk k +
      t.count k = st.prune_inbound_counts k + (nk :: t).count k
    have hd : (deregister_neighbor st nk).prune_inbound_counts =
      st.prune_inbound_counts := rfl
    rw [hd]
    by_cases hk : k = nk
    · subst hk
      rw [List.count_cons_self]
      simp only [bumpCount]
      rw [if_true]
      omega
    · rw [List.count_cons_of_ne hk]
      simp only [bumpCount, if_neg hk]

theorem applyInboundPrunes_out_counts (l : List NeighborKey) :
    ∀ st : PeerNetwork,
      (applyInboundPrunes st l).prune_outbound_counts =
        st.prune_outbound_counts := by
  induction l with
  | nil => intro st; rfl
  | cons nk t ih =>
    intro st
    simp only [applyInboundPrunes, List.foldl_cons] at *
    rw [ih]
    rfl

theorem applyOutboundPrunes_out_counts (l : List NeighborKey) :
    ∀ (st : PeerNetwork) (k : NeighborKey),
      (applyOutboundPrunes st l).prune_outbound_counts k =
        st.prune_outbound_counts k + l.count k := by
  induction l with
  | nil => intro st k; simp [applyOutboundPrunes]
  | cons nk t ih =>
    intro st k
    simp only [applyOutboundPrunes, List.foldl_cons] at *
    rw [ih]
    show bumpCount (deregister_neighbor st nk).prune_outbound_counts nk k +
      t.count k = st.prune_outbound_counts k + (nk :: t).count k
    have hd : (deregister_neighbor st nk).prune_outbound_counts =
      st.prune_outbound_counts := rfl
    rw [hd]
    by_cases hk : k = nk
    · subst hk
      rw [List.count_cons_self]
      simp only [bumpCount]
      rw [if_true]
      omega
    · rw [List.count_cons_of_ne hk]
      simp only [bumpCount, if_neg hk]

theorem applyOutboundPrunes_in_counts (l : List NeighborKey) :
    ∀ st : PeerNetwork,
      (applyOutboundPrunes st l).prune_inbound_counts =
        st.prune_inbound_counts := by
  induction l with
  | nil => intro st; rfl
  | cons nk t ih =>
    intro st
    simp only [applyOutboundPrunes, List.foldl_cons] at *
    rw [ih]
    rfl

theorem applyInboundPrunes_mem_events (l : List NeighborKey) :
    ∀ (st : PeerNetwork) (nk : NeighborKey) (e : Nat),
      (nk, e) ∈ st.events → ¬ nk ∈ l →
      (nk, e) ∈ (applyInboundPrunes st l).events := by
  induction l with
  | nil => intro st nk e h _; exact h
  | cons x t ih =>
    intro st nk e h hnl
    simp only [applyInboundPrunes, List.foldl_cons]
    refine ih _ nk e ?_ (fun hm => hnl (List.mem_cons_of_mem _ hm))
    simp only [deregister_neighbor, List.mem_filter]
    refine ⟨h, ?_⟩
    simp only [decide_eq_true_eq]
    intro hx
    exact hnl (by rw [hx]; exact List.mem_cons_self _ _)

theorem applyOutboundPrunes_mem_events (l : List NeighborKey) :
    ∀ (st : PeerNetwork) (nk : NeighborKey) (e : Nat),
      (nk, e) ∈ st.events → ¬ nk ∈ l →
      (nk, e) ∈ (applyOutboundPrunes st l).events := by
  induction l with
  | nil => intro st nk e h _; exact h
  | cons x t ih =>
    intro st nk e h hnl
    simp only [applyOutboundPrunes, List.foldl_cons]
    refine ih _ nk e ?_ (fun hm => hnl (List.mem_cons_of_mem _ hm))
    simp only [deregister_neighbor, List.mem_filter]
    refine ⟨h, ?_⟩
    simp only [decide_eq_true_eq]
    intro hx
    exact hnl (by rw [hx]; exact List.mem_cons_self _ _)

theorem pruneIn_mem {st : PeerNetwork} {preserve : List Nat} {nk : NeighborKey}
    (h : nk ∈ prune_frontier_inbound_ip st preserve) :
    ∃ e, (nk, e) ∈ st.events ∧ ¬ e ∈ preserve ∧
      ∃ c, lookupA st.peers e = some c ∧ c.stats.outbound = false := by
  have h1 : nk ∈ (selectedInbound st.peers preserve st.events).map
      (fun t => t.2.1) :=
    Multiset.mem_coe.mp (Multiset.mem_of_le (pruneIn_keys_le st preserve)
      (Multiset.mem_coe.mpr h))
  obtain ⟨t, ht, hfn⟩ := List.mem_map.mp h1
  obtain ⟨p, hp, hsel⟩ := List.mem_filterMap.mp ht
  obtain ⟨hpres, c, hl, hob, hx⟩ := selIn_eq_some hsel
  have hkey : t.2.1 = p.1 := by rw [hx]
  refine ⟨p.2, ?_, hpres, c, hl, hob⟩
  rw [← hfn, hkey] at *
  simpa using hp

theorem pruneOut_mem {db : NeighborKey → Except Unit (Option Nat)}
    {oracle : Nat → Nat} {now : Nat} {st : PeerNetwork} {preserve : List Nat}
    {l : List NeighborKey} {nk : NeighborKey}
    (hres : prune_frontier_outbound_orgs db oracle now st preserve =
      some (Except.ok l))
    (h : nk ∈ l) :
    ∃ p ∈ st.events, ¬ p.2 ∈ preserve ∧
      ∃ c, lookupA st.peers p.2 = some c ∧ c.stats.outbound = true ∧
        c.neighborKey = nk ∧ ∃ o, db nk = Except.ok (some o) := by
  have h1 : nk ∈ (selectedOutbound db st.peers preserve st.events).map Prod.fst :=
    Multiset.mem_coe.mp (Multiset.mem_of_le (pruneOut_keys_le hres)
      (Multiset.mem_coe.mpr h))
  obtain ⟨x, hx, hfn⟩ := List.mem_map.mp h1
  obtain ⟨p, hp, hsel⟩ := List.mem_filterMap.mp hx
  obtain ⟨hpres, c, hl, hob, hxe, o, hdb⟩ := selOut_eq_some hsel
  have hkey : c.neighborKey = nk := by
    rw [hxe] at hfn
    exact hfn
  exact ⟨p, hp, hpres, c, hl, hob, hkey, o, by rw [← hkey]; exact hdb⟩

theorem pruneIn_nodup {st : PeerNetwork} {preserve : List Nat}
    (hnd : (st.events.map Prod.fst).Nodup) :
    (prune_frontier_inbound_ip st preserve).Nodup := by
  have hsel : ((selectedInbound st.peers preserve st.events).map
      (fun t => t.2.1)).Nodup :=
    hnd.sublist selectedInbound_keys_sublist
  have := Multiset.nodup_of_le (pruneIn_keys_le st preserve)
    (Multiset.coe_nodup.mpr hsel)
  exact Multiset.coe_nodup.mp this

theorem pruneOut_nodup {db : NeighborKey → Except Unit (Option Nat)}
    {oracle : Nat → Nat} {now : Nat} {st : PeerNetwork} {preserve : List Nat}
    {l : List NeighborKey}
    (hres : prune_frontier_outbound_orgs db oracle now st preserve =
      some (Except.ok l))
    (hnd : (st.events.map Prod.fst).Nodup)
    (hck : ∀ p ∈ st.events, convoKeyOk st.peers p) :
    l.Nodup := by
  have hsel : ((selectedOutbound db st.peers preserve st.events).map
      Prod.fst).Nodup :=
    hnd.sublist (selectedOutbound_keys_sublist hck)
  have := Multiset.nodup_of_le (pruneOut_keys_le hres)
    (Multiset.coe_nodup.mpr hsel)
  exact Multiset.coe_nodup.mp this

theorem pruneIn_length_le (st : PeerNetwork) (preserve : List Nat) :
    (prune_frontier_inbound_ip st preserve).length ≤ dirCount st preserve false := by
  have h1 := Multiset.card_le_card (pruneIn_keys_le st preserve)
  rw [Multiset.coe_card, Multiset.coe_card, List.length_map] at h1
  exact h1.trans selectedInbound_length_le

theorem pruneOut_length_le {db : NeighborKey → Except Unit (Option Nat)}
    {oracle : Nat → Nat} {now : Nat} {st : PeerNetwork} {preserve : List Nat}
    {l : List NeighborKey}
    (hres : prune_frontier_outbound_orgs db oracle now st preserve =
      some (Except.ok l)) :
    l.length ≤ dirCount st preserve true := by
  have h1 := Multiset.card_le_card (pruneOut_keys_le hres)
  rw [Multiset.coe_card, Multiset.coe_card, List.length_map] at h1
  exact h1.trans selectedOutbound_length_le

theorem dirCount_mono {st1 st : PeerNetwork} (preserve : List Nat) (outb : Bool)
    (hev : st1.events <+ st.events) (hpe : st1.peers <+ st.peers)
    (hnd : (st.peers.map Prod.fst).Nodup) :
    dirCount st1 preserve outb ≤ dirCount st preserve outb := by
  unfold dirCount
  refine List.Sublist.length_le ?_
  refine sublist_filter_of_forall
    ((List.filter_sublist st1.events).trans hev) ?_
  intro x hx
  have hk1 := List.of_mem_filter hx
  simp only [dirKeep, Bool.and_eq_true, decide_eq_true_eq] at hk1 ⊢
  refine ⟨hk1.1, ?_⟩
  cases hl : lookupA st1.peers x.2 with
  | none => rw [hl] at hk1; simp at hk1
  | some c =>
    rw [hl] at hk1
    rw [lookupA_sublist_some hpe hnd hl]
    exact hk1.2

theorem applyOutboundPrunes_events_sublist (l : List NeighborKey) :
    ∀ st : PeerNetwork, (applyOutboundPrunes st l).events <+ st.events := by
  induction l with
  | nil => intro st; exact List.Sublist.refl _
  | cons nk t ih =>
    intro st
    simp only [applyOutboundPrunes, List.foldl_cons]
    exact (ih _).trans (deregister_events_sublist st nk)

theorem applyOutboundPrunes_peers_sublist (l : List NeighborKey) :
    ∀ st : PeerNetwork, (applyOutboundPrunes st l).peers <+ st.peers := by
  induction l with
  | nil => intro st; exact List.Sublist.refl _
  | cons nk t ih =>
    intro st
    simp only [applyOutboundPrunes, List.foldl_cons]
    exact (ih _).trans (deregister_peers_sublist st nk)

theorem WF_applyOutboundPrunes (l : List NeighborKey) :
    ∀ st : PeerNetwork, WF st → WF (applyOutboundPrunes st l) := by
  induction l with
  | nil => intro st h; exact h
  | cons nk t ih =>
    intro st h
    simp only [applyOutboundPrunes, List.foldl_cons]
    exact ih _ (WF_deregister h nk)

theorem prune_frontier_some {db : NeighborKey → Except Unit (Option Nat)}
    {oracle : Nat → Nat} {now : Nat} {st : PeerNetwork} {preserve : List Nat}
    {st2 : PeerNetwork} {inL outL : List NeighborKey}
    (h : prune_frontier db oracle now st preserve = some (st2, inL, outL)) :
    inL = prune_frontier_inbound_ip st preserve ∧
    (prune_frontier_outbound_orgs db oracle now
        (applyInboundPrunes st (prune_frontier_inbound_ip st preserve)) preserve =
          some (Except.ok outL) ∨
      (prune_frontier_outbound_orgs db oracle now
        (applyInboundPrunes st (prune_frontier_inbound_ip st preserve)) preserve =
          some (Except.error ()) ∧ outL = [])) ∧
    st2 = applyOutboundPrunes
      (applyInboundPrunes st (prune_frontier_inbound_ip st preserve)) outL := by
  unfold prune_frontier at h
  cases hr : prune_frontier_outbound_orgs db oracle now
      (applyInboundPrunes st (prune_frontier_inbound_ip st preserve)) preserve with
  | none => simp only [hr] at h; cases h
  | some r =>
    simp only [hr] at h
    cases r with
    | ok l =>
      simp only [Option.some.injEq, Prod.mk.injEq] at h
      obtain ⟨h1, h2, h3⟩ := h
      subst h2
      subst h3
      exact ⟨rfl, Or.inl rfl, h1.symm⟩
    | error e =>
      cases e
      simp only [Option.some.injEq, Prod.mk.injEq] at h
      obtain ⟨h1, h2, h3⟩ := h
      subst h2
      subst h3
      exact ⟨rfl, Or.inr ⟨rfl, rfl⟩, h1.symm⟩

theorem mem_insertPush {α β : Type} [DecidableEq α]
    (Q : α → β → Prop) {m : List (α × List β)} {k : α} {v : β}
    (hm : ∀ p ∈ m, ∀ t ∈ p.2, Q p.1 t) (hv : Q k v) :
    ∀ p ∈ insertPush m k v, ∀ t ∈ p.2, Q p.1 t := by
  induction m with
  | nil =>
    intro p hp t ht
    simp only [insertPush, List.mem_singleton] at hp
    subst hp
    simp only [List.mem_singleton] at ht
    subst ht
    exact hv
  | cons q rest ih =>
    obtain ⟨a, l⟩ := q
    intro p hp t ht
    by_cases hak : a = k
    · subst hak
      simp only [insertPush, if_pos rfl] at hp
      rcases List.mem_cons.mp hp with hph | hph
      · subst hph
        rcases List.mem_append.mp ht with htl | htl
        · exact hm (a, l) (List.mem_cons_self _ _) t htl
        · simp only [List.mem_singleton] at htl
          subst htl
          exact hv
      · exact hm p (List.mem_cons_of_mem _ hph) t ht
    · simp only [insertPush, if_neg hak] at hp
      rcases List.mem_cons.mp hp with hph | hph
      · subst hph
        exact hm (a, l) (List.mem_cons_self _ _) t ht
      · exact ih (fun p' hp' => hm p' (List.mem_cons_of_mem _ hp')) p hph t ht

theorem ipGroupsGo_addr {peers : List (Nat × Conversation)} {preserve : List Nat} :
    ∀ (evs : List (NeighborKey × Nat))
      (acc : List (Nat × List (Nat × NeighborKey × NeighborStats))),
      (∀ p ∈ acc, ∀ t ∈ p.2, t.2.1.addrbytes = p.1) →
      ∀ p ∈ ipGroupsGo peers preserve acc evs, ∀ t ∈ p.2, t.2.1.addrbytes = p.1 := by
  intro evs
  induction evs with
  | nil => intro acc hacc; exact hacc
  | cons e rest ih =>
    obtain ⟨nk, eid⟩ := e
    intro acc hacc
    simp only [ipGroupsGo]
    by_cases hp : eid ∈ preserve
    · simp only [if_pos hp]
      exact ih acc hacc
    · simp only [if_neg hp]
      cases hl : lookupA peers eid with
      | none => exact ih acc hacc
      | some c =>
        by_cases hob : c.stats.outbound
        · simp only [if_pos hob]
          exact ih acc hacc
        · simp only [if_neg hob]
          exact ih _ (mem_insertPush
            (fun (a : Nat) (t : Nat × NeighborKey × NeighborStats) =>
              t.2.1.addrbytes = a) hacc rfl)

theorem fcLe_iff (a b : Nat × NeighborKey × NeighborStats) :
    fcLe a b ↔ a.2.2.first_contact_time ≤ b.2.2.first_contact_time := by
  unfold fcLe compareFirstContact
  split_ifs with h1 h2
  · simp
    omega
  · simp
    omega
  · simp
    omega

instance : IsTotal (Nat × NeighborKey × NeighborStats) fcLe :=
  ⟨fun a b => by rw [fcLe_iff, fcLe_iff]; omega⟩

instance : IsTrans (Nat × NeighborKey × NeighborStats) fcLe :=
  ⟨fun a b c => by rw [fcLe_iff, fcLe_iff, fcLe_iff]; omega⟩

theorem sampleWalk_finds :
    ∀ (ws : List (Nat × Nat)) (off sample : Nat),
      off ≤ sample → sample < off + totalWeight ws →
      ∃ org cnt, sampleWalk sample off ws = some org ∧
        ∃ off2, (org, cnt) ∈ ws ∧ off2 ≤ sample ∧ sample < off2 + cnt := by
  intro ws
  induction ws with
  | nil =>
    intro off sample hlo hhi
    simp [totalWeight] at hhi
    omega
  | cons e rest ih =>
    obtain ⟨o, c⟩ := e
    intro off sample hlo hhi
    have htot : totalWeight ((o, c) :: rest) = c + totalWeight rest := by
      simp [totalWeight]
    by_cases hc : c = 0
    · subst hc
      simp only [sampleWalk, if_pos rfl]
      obtain ⟨org, cnt, hw, off2, hmem, h1, h2⟩ :=
        ih off sample hlo (by rw [htot] at hhi; omega)
      exact ⟨org, cnt, hw, off2, List.mem_cons_of_mem _ hmem, h1, h2⟩
    · by_cases hin : off ≤ sample ∧ sample < off + c
      · refine ⟨o, c, ?_, off, List.mem_cons_self _ _, hin.1, hin.2⟩
        simp only [sampleWalk, if_neg hc, if_pos hin]
      · have hge : off + c ≤ sample := by
          rcases Nat.lt_or_ge sample (off + c) with hlt | hge
          · exact absurd ⟨hlo, hlt⟩ hin
          · exact hge
        obtain ⟨org, cnt, hw, off2, hmem, h1, h2⟩ :=
          ih (off + c) sample hge (by rw [htot] at hhi; omega)
        refine ⟨org, cnt, ?_, off2, List.mem_cons_of_mem _ hmem, h1, h2⟩
        simp only [sampleWalk, if_neg hc, if_neg hin]
        exact hw

/-- A trivial RNG oracle for concrete runs. -/
def oracle0 : Nat → Nat := fun _ => 0

/-- A peer database that knows every peer and assigns organization 0. -/
def dbAll0 : NeighborKey → Except Unit (Option Nat) := fun _ => Except.ok (some 0)

/-- Shorthand for concrete neighbor keys. -/
def nkOf (a p : Nat) : NeighborKey := NeighborKey.mk 1 a p

/-- A two-connection table (one outbound, one inbound) with both soft
limits at 1: below every threshold. -/
def c6st : PeerNetwork :=
  { events := [(nkOf 10 1, 0), (nkOf 20 2, 1)]
    peers := [(0, Conversation.mk (NeighborStats.mk true 5 0) (nkOf 10 1)),
              (1, Conversation.mk (NeighborStats.mk false 5 0) (nkOf 20 2))]
    soft_num_neighbors := 1
    soft_max_neighbors_per_org := 1
    soft_num_clients := 1
    soft_max_clients_per_host := 1
    prune_inbound_counts := fun _ => 0
    prune_outbound_counts := fun _ => 0 }

/-- C2.  The claim states that when `bucket(stats1) > bucket(stats2)` the
comparator returns `Greater`.  The code compares `uptime_bucket_1` with
itself on that branch (prune.rs:142), so the branch is unreachable: at
`now = 100`, stats1 with `first_contact_time = 98` has uptime 2 and
bucket 1, stats2 with `first_contact_time = 99` has uptime 1 and
bucket 0, yet with equal health the comparator returns `Equal`, and with
`health1 < health2` it returns `Less` — not `Greater` as the claim
requires.  The spec's own design notes flag this comparison as a
copy-paste defect, so the claim is right and the code is wrong. -/
theorem c2_uptime_bucket_greater_branch_unreachable :
    uptimeBucket 2 = 1 ∧ uptimeBucket 1 = 0 ∧
    compare_neighbor_uptime_health 100
      (NeighborStats.mk true 98 0) (NeighborStats.mk true 99 0) = Ordering.eq ∧
    compare_neighbor_uptime_health 100
      (NeighborStats.mk true 98 0) (NeighborStats.mk true 99 1) = Ordering.lt := by
  decide

/-- C6.  When the outbound count is at most `soft_num_neighbors` and the
inbound count is at most `soft_num_clients`, both pruners return the
empty list and `prune_frontier` leaves the state untouched: nothing is
deregistered and no telemetry counter changes. -/
theorem c6_idempotent_below_threshold
    (db : NeighborKey → Except Unit (Option Nat)) (oracle : Nat → Nat) (now : Nat)
    (st : PeerNetwork) (preserve : List Nat)
    (hout : count_outbound_conversations st.peers ≤ st.soft_num_neighbors)
    (hin : num_peers st - count_outbound_conversations st.peers ≤
      st.soft_num_clients) :
    prune_frontier_inbound_ip st preserve = [] ∧
    prune_frontier_outbound_orgs db oracle now st preserve =
      some (Except.ok []) ∧
    prune_frontier db oracle now st preserve = some (st, [], []) := by
  have h1 : prune_frontier_inbound_ip st preserve = [] := by
    unfold prune_frontier_inbound_ip
    rw [if_pos hin]
  have h2 : prune_frontier_outbound_orgs db oracle now st preserve =
      some (Except.ok []) := by
    unfold prune_frontier_outbound_orgs
    rw [if_pos hout]
  refine ⟨h1, h2, ?_⟩
  have h3 : applyInboundPrunes st [] = st := rfl
  have h4 : applyOutboundPrunes st [] = st := rfl
  simp only [prune_frontier, h1, h3, h2, h4]

/-- C6 witness: a connection table with one inbound and one outbound
connection and both soft limits at 1 is left untouched. -/
theorem c6_witness :
    count_outbound_conversations c6st.peers ≤ c6st.soft_num_neighbors ∧
    num_peers c6st - count_outbound_conversations c6st.peers ≤
      c6st.soft_num_clients ∧
    (prune_frontier_inbound_ip c6st [] = [] ∧
      prune_frontier_outbound_orgs dbAll0 oracle0 50 c6st [] =
        some (Except.ok []) ∧
      prune_frontier dbAll0 oracle0 50 c6st [] = some (c6st, [], [])) :=
  ⟨by decide, by decide,
    c6_idempotent_below_threshold dbAll0 oracle0 50 c6st [] (by decide) (by decide)⟩

/-- C10.  The walk of `sample_org_by_neighbor_count` always terminates at
an entry whose interval `[offset, offset + count)` contains the sample,
provided the total weight is positive and the sample is drawn in
`[0, total)`; hence the trailing `unreachable!` is never executed, for
any RNG draw. -/
theorem c10_sample_walk_total (ws : List (Nat × Nat))
    (hpos : 0 < totalWeight ws) :
    (∀ sample, sample < totalWeight ws →
      ∃ org cnt, sampleWalk sample 0 ws = some org ∧
        ∃ off, (org, cnt) ∈ ws ∧ off ≤ sample ∧ sample < off + cnt) ∧
    (∀ draw, ∃ org, sample_org_by_neighbor_count draw ws = some org) := by
  constructor
  · intro sample hs
    exact sampleWalk_finds ws 0 sample (Nat.zero_le _) (by omega)
  · intro draw
    have hmod : draw % totalWeight ws < totalWeight ws := Nat.mod_lt _ hpos
    obtain ⟨org, cnt, hw, _⟩ :=
      sampleWalk_finds ws 0 (draw % totalWeight ws) (Nat.zero_le _) (by omega)
    refine ⟨org, ?_⟩
    unfold sample_org_by_neighbor_count
    rw [if_neg (by omega)]
    exact hw

/-- C10 witness: with weights `{10 ↦ 0, 20 ↦ 3, 30 ↦ 4}` the walk finds
an entry for every in-range sample and the sampler never panics. -/
theorem c10_witness :
    0 < totalWeight [(10, 0), (20, 3), (30, 4)] ∧
    ((∀ sample, sample < totalWeight [(10, 0), (20, 3), (30, 4)] →
      ∃ org cnt, sampleWalk sample 0 [(10, 0), (20, 3), (30, 4)] = some org ∧
        ∃ off, (org, cnt) ∈ [(10, 0), (20, 3), (30, 4)] ∧
          off ≤ sample ∧ sample < off + cnt) ∧
    (∀ draw, ∃ org,
      sample_org_by_neighbor_count draw [(10, 0), (20, 3), (30, 4)] = some org)) :=
  ⟨by decide, c10_sample_walk_total [(10, 0), (20, 3), (30, 4)] (by decide)⟩

/-- The spec's own hard-trim scenario: 20 outbound connections, four per
organization across five organizations, `soft_num_neighbors = 10`,
`soft_max_neighbors_per_org = 3`. -/
def c1st : PeerNetwork :=
  { events := (List.range 20).map (fun i => (nkOf i (30 + i), i))
    peers := (List.range 20).map (fun i =>
      (i, Conversation.mk (NeighborStats.mk true 0 0) (nkOf i (30 + i))))
    soft_num_neighbors := 10
    soft_max_neighbors_per_org := 3
    soft_num_clients := 100
    soft_max_clients_per_host := 100
    prune_inbound_counts := fun _ => 0
    prune_outbound_counts := fun _ => 0 }

/-- Peer database for the hard-trim scenario: consecutive blocks of four
address bytes share one organization. -/
def c1db : NeighborKey → Except Unit (Option Nat) :=
  fun nk => Except.ok (some (nk.addrbytes / 4))

/-- C1.  The claim says hard-trim evicts exactly one member per
organization here (5 evicted, 15 remaining, each organization at 3) and
shortens no other organization's list.  In the source the removal loop
(prune.rs:229-231) runs `ret.len()` times per organization, where `ret`
is the *cumulative* eviction list across organizations, so the second
organization processed loses 2 members, the third 3, the fourth 4, and
on the fifth `Vec::remove(0)` is called on an already-empty vector — a
panic, modelled as `none` — whatever the RNG would later draw.  The
other two conjuncts pin the scenario down: 20 outbound conversations,
and an organization distribution of five organizations with four members
each. -/
theorem c1_hard_trim_over_removes_and_panics :
    (∀ oracle : Nat → Nat,
      prune_frontier_outbound_orgs c1db oracle 100 c1st [] = none) ∧
    count_outbound_conversations c1st.peers = 20 ∧
    (org_neighbor_distribution c1db c1st []).map
        (fun m => m.map (fun p => (p.1, p.2.length))) =
      Except.ok [(0, 4), (1, 4), (2, 4), (3, 4), (4, 4)] :=
  ⟨fun _ => rfl, by decide, rfl⟩

/-- First key of the drop-probability counterexample (weight 1 of 4). -/
def c7A : NeighborKey := nkOf 100 1

/-- Second key of the drop-probability counterexample (weight 3 of 4). -/
def c7B : NeighborKey := nkOf 200 2

/-- C7.  The claim says the set of sample points in `[0,1)` for which
`sample_drop_probability` returns a key has measure `weight/total`; for
the map `{A ↦ 1, B ↦ 3}` the key `A` should be returned on a set of
measure `1/4`.  But the code returns the first entry whose *own*
cumulative threshold is `≤ point`, so `A` (threshold `1/4`) is returned
for every point in `[1/4, 1)` — a set of measure `3/4`, not `1/4`;
weight-proportional selection is the spec's clearly stated contract, so
the code's reversed comparison is a defect. -/
theorem c7_drop_probability_not_proportional (q : ℚ)
    (hlo : 1 / 4 ≤ q) (hhi : q < 1) :
    sample_drop_probability q [(c7A, 1), (c7B, 3)] = some c7A := by
  have hsum : (([(c7A, (1 : ℚ)), (c7B, 3)]).map Prod.snd).sum = 4 := by
    norm_num
  have hnd : normCumul (([(c7A, (1 : ℚ)), (c7B, 3)]).map Prod.snd).sum 0
      [(c7A, 1), (c7B, 3)] = [(c7A, 1 / 4), (c7B, 1)] := by
    rw [hsum]
    norm_num [normCumul]
  have hfind : ([(c7A, (1 : ℚ) / 4), (c7B, 1)]).find?
      (fun p => decide (q ≥ p.2)) = some (c7A, 1 / 4) := by
    have htrue : (decide (q ≥ (1 : ℚ) / 4)) = true := decide_eq_true hlo
    simp only [List.find?, htrue]
  simp only [sample_drop_probability, hnd, hfind]

/-- C7 witness: at the sample point `1/2` the code returns the
weight-1-of-4 key. -/
theorem c7_witness :
    (1 : ℚ) / 4 ≤ 1 / 2 ∧ (1 : ℚ) / 2 < 1 ∧
    sample_drop_probability (1 / 2) [(c7A, 1), (c7B, 3)] = some c7A :=
  ⟨by norm_num, by norm_num,
    c7_drop_probability_not_proportional (1 / 2) (by norm_num) (by norm_num)⟩

/-- C3.  A connection whose event id is in the preserve set is invisible
to both pruners — its key is never in the inbound pruner's output, never
in an `Ok` output of the outbound pruner (it is excluded from the
organization distribution), and it survives a full `prune_frontier` pass
untouched — regardless of its age, health, or group size.  Well-formed
table: distinct keys and event ids, conversations report their own
key. -/
theorem c3_preserve_set_never_evicted
    (db : NeighborKey → Except Unit (Option Nat)) (oracle : Nat → Nat) (now : Nat)
    (st : PeerNetwork) (preserve : List Nat) (nk0 : NeighborKey) (e0 : Nat)
    (hWF : WF st) (hmem : (nk0, e0) ∈ st.events) (hpres : e0 ∈ preserve) :
    ¬ nk0 ∈ prune_frontier_inbound_ip st preserve ∧
    (∀ l, prune_frontier_outbound_orgs db oracle now st preserve =
      some (Except.ok l) → ¬ nk0 ∈ l) ∧
    (∀ st2 inL outL,
      prune_frontier db oracle now st preserve = some (st2, inL, outL) →
      ¬ nk0 ∈ inL ∧ ¬ nk0 ∈ outL ∧ (nk0, e0) ∈ st2.events) := by
  have hin : ¬ nk0 ∈ prune_frontier_inbound_ip st preserve := by
    intro hm
    obtain ⟨e, hmem', hpres', _, _, _⟩ := pruneIn_mem hm
    exact hpres' (lookupA_unique hWF.1 hmem' hmem ▸ hpres)
  have hout : ∀ st' : PeerNetwork, WF st' → (nk0, e0) ∈ st'.events →
      ∀ l, prune_frontier_outbound_orgs db oracle now st' preserve =
        some (Except.ok l) → ¬ nk0 ∈ l := by
    intro st' hWF' hmem' l hres hm
    obtain ⟨p, hp, hpres', c, hl, _, hkey, _, _⟩ := pruneOut_mem hres hm
    obtain ⟨pk, pe⟩ := p
    have hp1 : pk = nk0 := by
      rw [← hkey]
      exact (hWF'.2.2.2 (pk, pe) hp c hl).symm
    subst hp1
    exact hpres' (lookupA_unique hWF'.1 hp hmem' ▸ hpres)
  refine ⟨hin, hout st hWF hmem, ?_⟩
  intro st2 inL outL h
  obtain ⟨hinL, houtd, hst2⟩ := prune_frontier_some h
  subst hinL
  have hWF1 := WF_applyInboundPrunes (prune_frontier_inbound_ip st preserve) st hWF
  have hmem1 : (nk0, e0) ∈
      (applyInboundPrunes st (prune_frontier_inbound_ip st preserve)).events :=
    applyInboundPrunes_mem_events _ st nk0 e0 hmem hin
  have hnoutL : ¬ nk0 ∈ outL := by
    rcases houtd with hok | ⟨_, hempty⟩
    · exact hout _ hWF1 hmem1 outL hok
    · rw [hempty]
      simp
  refine ⟨hin, hnoutL, ?_⟩
  rw [hst2]
  exact applyOutboundPrunes_mem_events _ _ nk0 e0 hmem1 hnoutL

/-- A table with a single inbound connection whose event id (5) is
preserved, under soft limits of zero (maximal pruning pressure). -/
def c3st : PeerNetwork :=
  { events := [(nkOf 7 1, 5)]
    peers := [(5, Conversation.mk (NeighborStats.mk false 1 0) (nkOf 7 1))]
    soft_num_neighbors := 0
    soft_max_neighbors_per_org := 0
    soft_num_clients := 0
    soft_max_clients_per_host := 0
    prune_inbound_counts := fun _ => 0
    prune_outbound_counts := fun _ => 0 }

/-- C3 witness: with every soft limit zero, the preserved connection is
still never returned by either pruner nor removed by a pass. -/
theorem c3_witness :
    WF c3st ∧ (nkOf 7 1, 5) ∈ c3st.events ∧ 5 ∈ [5] ∧
    (¬ nkOf 7 1 ∈ prune_frontier_inbound_ip c3st [5] ∧
      (∀ l, prune_frontier_outbound_orgs dbAll0 oracle0 9 c3st [5] =
        some (Except.ok l) → ¬ nkOf 7 1 ∈ l) ∧
      (∀ st2 inL outL,
        prune_frontier dbAll0 oracle0 9 c3st [5] = some (st2, inL, outL) →
        ¬ nkOf 7 1 ∈ inL ∧ ¬ nkOf 7 1 ∈ outL ∧ (nkOf 7 1, 5) ∈ st2.events)) :=
  ⟨by decide, by decide, by decide,
    c3_preserve_set_never_evicted dbAll0 oracle0 9 c3st [5] (nkOf 7 1) 5
      (by decide) (by decide) (by decide)⟩

/-- C4.  One `prune_frontier` pass never selects a key twice: the
inbound and (when it returns `Ok`) outbound eviction lists are each
duplicate-free, they are disjoint, and each is bounded by the number of
live non-preserved connections of its direction in the starting
table. -/
theorem c4_no_double_eviction
    (db : NeighborKey → Except Unit (Option Nat)) (oracle : Nat → Nat) (now : Nat)
    (st st2 : PeerNetwork) (preserve : List Nat) (inL outL : List NeighborKey)
    (hWF : WF st)
    (h : prune_frontier db oracle now st preserve = some (st2, inL, outL)) :
    inL.Nodup ∧ outL.Nodup ∧ (∀ k ∈ inL, ¬ k ∈ outL) ∧
    inL.length ≤ dirCount st preserve false ∧
    outL.length ≤ dirCount st preserve true := by
  obtain ⟨hinL, houtd, _⟩ := prune_frontier_some h
  subst hinL
  have hWF1 := WF_applyInboundPrunes (prune_frontier_inbound_ip st preserve) st hWF
  have hev1 := applyInboundPrunes_events_sublist (prune_frontier_inbound_ip st preserve) st
  have hpe1 := applyInboundPrunes_peers_sublist (prune_frontier_inbound_ip st preserve) st
  refine ⟨pruneIn_nodup hWF.1, ?_, ?_, pruneIn_length_le st preserve, ?_⟩
  · rcases houtd with hok | ⟨_, hempty⟩
    · exact pruneOut_nodup hok hWF1.1 hWF1.2.2.2
    · rw [hempty]
      exact List.nodup_nil
  · intro k hkin hkout
    rcases houtd with hok | ⟨_, hempty⟩
    · obtain ⟨e1, hm1, _, c1, hl1, hob1⟩ := pruneIn_mem hkin
      obtain ⟨p, hp, _, c2, hl2, hob2, hkey2, _, _⟩ := pruneOut_mem hok hkout
      obtain ⟨pk, pe⟩ := p
      have hp1 : pk = k := by
        rw [← hkey2]
        exact (hWF1.2.2.2 (pk, pe) hp c2 hl2).symm
      subst hp1
      have hpev : (pk, pe) ∈ st.events := hev1.subset hp
      have he : pe = e1 := lookupA_unique hWF.1 hpev hm1
      have hc2' : lookupA st.peers pe = some c2 :=
        lookupA_sublist_some hpe1 hWF.2.2.1 hl2
      rw [he, hl1] at hc2'
      have : c1 = c2 := Option.some.inj hc2'
      rw [← this] at hob2
      rw [hob1] at hob2
      cases hob2
    · rw [hempty] at hkout
      simp at hkout
  · rcases houtd with hok | ⟨_, hempty⟩
    · exact (pruneOut_length_le hok).trans
        (dirCount_mono preserve true hev1 hpe1 hWF.2.2.1)
    · rw [hempty]
      simp

/-- Four inbound connections from one IP (address bytes 7, ports 1-4,
first contact times 100, 200, 300, 400) with `soft_num_clients = 2` and
`soft_max_clients_per_host = 2`; no outbound connections. -/
def cInSt : PeerNetwork :=
  { events := [(nkOf 7 1, 1), (nkOf 7 2, 2), (nkOf 7 3, 3), (nkOf 7 4, 4)]
    peers := [(1, Conversation.mk (NeighborStats.mk false 100 0) (nkOf 7 1)),
              (2, Conversation.mk (NeighborStats.mk false 200 0) (nkOf 7 2)),
              (3, Conversation.mk (NeighborStats.mk false 300 0) (nkOf 7 3)),
              (4, Conversation.mk (NeighborStats.mk false 400 0) (nkOf 7 4))]
    soft_num_neighbors := 100
    soft_max_neighbors_per_org := 100
    soft_num_clients := 2
    soft_max_clients_per_host := 2
    prune_inbound_counts := fun _ => 0
    prune_outbound_counts := fun _ => 0 }

/-- The state after one pass over `cInSt`: the two newest connections
from the shared IP are deregistered. -/
def cInSt2 : PeerNetwork :=
  applyOutboundPrunes (applyInboundPrunes cInSt [nkOf 7 3, nkOf 7 4]) []

/-- C4 witness: a concrete pass that prunes the two newest inbound
connections satisfies all the no-double-eviction bounds. -/
theorem c4_witness :
    WF cInSt ∧
    prune_frontier dbAll0 oracle0 500 cInSt [] =
      some (cInSt2, [nkOf 7 3, nkOf 7 4], []) ∧
    ([nkOf 7 3, nkOf 7 4].Nodup ∧ ([] : List NeighborKey).Nodup ∧
      (∀ k ∈ [nkOf 7 3, nkOf 7 4], ¬ k ∈ ([] : List NeighborKey)) ∧
      [nkOf 7 3, nkOf 7 4].length ≤ dirCount cInSt [] false ∧
      ([] : List NeighborKey).length ≤ dirCount cInSt [] true) :=
  ⟨by decide, rfl,
    c4_no_double_eviction dbAll0 oracle0 500 cInSt cInSt2 []
      [nkOf 7 3, nkOf 7 4] [] (by decide) rfl⟩

/-- C8.  Error handling of the outbound path: past the fast path, a
storage error from the organization distribution makes
`prune_frontier_outbound_orgs` return that error (pruning nothing);
a "not found" lookup is no error — the peer merely appears in no
organization bucket; and `prune_frontier` treats the error as an empty
outbound eviction list, completing the pass with the inbound prunes
already applied (the final state is exactly the post-inbound state). -/
theorem c8_outbound_error_handling
    (db : NeighborKey → Except Unit (Option Nat)) (oracle : Nat → Nat) (now : Nat)
    (st : PeerNetwork) (preserve : List Nat)
    (hover : st.soft_num_neighbors < count_outbound_conversations st.peers)
    (herr : org_neighbor_distribution db st preserve = Except.error ()) :
    prune_frontier_outbound_orgs db oracle now st preserve =
      some (Except.error ()) ∧
    (∀ (db' : NeighborKey → Except Unit (Option Nat)) (st' : PeerNetwork)
        (pres' : List Nat) m nk,
      org_neighbor_distribution db' st' pres' = Except.ok m →
      db' nk = Except.ok none →
      ¬ nk ∈ (groupVals m).map Prod.fst) ∧
    (∀ st0 : PeerNetwork,
      applyInboundPrunes st0 (prune_frontier_inbound_ip st0 preserve) = st →
      prune_frontier db oracle now st0 preserve =
        some (st, prune_frontier_inbound_ip st0 preserve, [])) := by
  have ha : prune_frontier_outbound_orgs db oracle now st preserve =
      some (Except.error ()) := by
    unfold prune_frontier_outbound_orgs
    rw [if_neg (by omega)]
    rw [herr]
  refine ⟨ha, ?_, ?_⟩
  · intro db' st' pres' m nk hok hnf hm
    obtain ⟨x, hx, hfn⟩ := List.mem_map.mp hm
    have hperm : groupVals m ~ selectedOutbound db' st'.peers pres' st'.events := by
      have := orgDistGo_ok_perm hok
      simpa [groupVals] using this
    have hxsel : x ∈ selectedOutbound db' st'.peers pres' st'.events :=
      hperm.subset hx
    obtain ⟨p, _, hsel⟩ := List.mem_filterMap.mp hxsel
    obtain ⟨_, c, _, _, hxe, o, hdb⟩ := selOut_eq_some hsel
    rw [hxe] at hfn
    have hfn' : c.neighborKey = nk := hfn
    rw [hfn', hnf] at hdb
    cases hdb
  · intro st0 hst0
    have h3 : applyOutboundPrunes st [] = st := rfl
    simp only [prune_frontier, hst0, ha, h3]

/-- One outbound connection with `soft_num_neighbors = 0`. -/
def c8st : PeerNetwork :=
  { events := [(nkOf 3 9, 0)]
    peers := [(0, Conversation.mk (NeighborStats.mk true 1 0) (nkOf 3 9))]
    soft_num_neighbors := 0
    soft_max_neighbors_per_org := 0
    soft_num_clients := 100
    soft_max_clients_per_host := 100
    prune_inbound_counts := fun _ => 0
    prune_outbound_counts := fun _ => 0 }

/-- A peer database whose every lookup fails with a storage error. -/
def dbErr : NeighborKey → Except Unit (Option Nat) := fun _ => Except.error ()

/-- C8 witness: over-subscribed outbound table with an erroring database
exercises the error path. -/
theorem c8_witness :
    c8st.soft_num_neighbors < count_outbound_conversations c8st.peers ∧
    org_neighbor_distribution dbErr c8st [] = Except.error () ∧
    (prune_frontier_outbound_orgs dbErr oracle0 10 c8st [] =
        some (Except.error ()) ∧
      (∀ (db' : NeighborKey → Except Unit (Option Nat)) (st' : PeerNetwork)
          (pres' : List Nat) m nk,
        org_neighbor_distribution db' st' pres' = Except.ok m →
        db' nk = Except.ok none →
        ¬ nk ∈ (groupVals m).map Prod.fst) ∧
      (∀ st0 : PeerNetwork,
        applyInboundPrunes st0 (prune_frontier_inbound_ip st0 []) = c8st →
        prune_frontier dbErr oracle0 10 st0 [] =
          some (c8st, prune_frontier_inbound_ip st0 [], []))) :=
  ⟨by decide, rfl,
    c8_outbound_error_handling dbErr oracle0 10 c8st [] (by decide) rfl⟩

/-- Counter bookkeeping of one full pass: the state stays well-formed,
every inbound-pruned key's inbound counter is incremented by exactly
one (inserted at one when absent, i.e. at implicit zero), every
outbound-pruned key's outbound counter likewise, and no counter ever
decreases. -/
theorem pass_counts
    (db : NeighborKey → Except Unit (Option Nat)) (oracle : Nat → Nat) (now : Nat)
    (st st2 : PeerNetwork) (preserve : List Nat) (inL outL : List NeighborKey)
    (hWF : WF st)
    (h : prune_frontier db oracle now st preserve = some (st2, inL, outL)) :
    WF st2 ∧
    (∀ k ∈ inL, st2.prune_inbound_counts k = st.prune_inbound_counts k + 1) ∧
    (∀ k ∈ outL, st2.prune_outbound_counts k = st.prune_outbound_counts k + 1) ∧
    (∀ k, st.prune_inbound_counts k ≤ st2.prune_inbound_counts k) ∧
    (∀ k, st.prune_outbound_counts k ≤ st2.prune_outbound_counts k) := by
  obtain ⟨hinL, houtd, hst2⟩ := prune_frontier_some h
  subst hinL
  subst hst2
  have hWF1 := WF_applyInboundPrunes (prune_frontier_inbound_ip st preserve) st hWF
  have hinnodup : (prune_frontier_inbound_ip st preserve).Nodup :=
    pruneIn_nodup hWF.1
  have houtnodup : outL.Nodup := by
    rcases houtd with hok | ⟨_, hempty⟩
    · exact pruneOut_nodup hok hWF1.1 hWF1.2.2.2
    · rw [hempty]
      exact List.nodup_nil
  have hic : ∀ k,
      (applyOutboundPrunes
        (applyInboundPrunes st (prune_frontier_inbound_ip st preserve))
        outL).prune_inbound_counts k =
      st.prune_inbound_counts k + (prune_frontier_inbound_ip st preserve).count k := by
    intro k
    rw [applyOutboundPrunes_in_counts outL, applyInboundPrunes_in_counts]
  have hoc : ∀ k,
      (applyOutboundPrunes
        (applyInboundPrunes st (prune_frontier_inbound_ip st preserve))
        outL).prune_outbound_counts k =
      st.prune_outbound_counts k + outL.count k := by
    intro k
    rw [applyOutboundPrunes_out_counts outL, applyInboundPrunes_out_counts]
  refine ⟨WF_applyOutboundPrunes outL _ hWF1, ?_, ?_, ?_, ?_⟩
  · intro k hk
    rw [hic k, List.count_eq_one_of_mem hinnodup hk]
  · intro k hk
    rw [hoc k, List.count_eq_one_of_mem houtnodup hk]
  · intro k
    rw [hic k]
    exact Nat.le_add_right _ _
  · intro k
    rw [hoc k]
    exact Nat.le_add_right _ _

/-- C9.  Telemetry monotonicity: in one pass each pruned key's counter
for its path becomes its previous value plus one (absent keys are
modelled as count zero, so insertion at one is the same rule), no
counter ever decreases, and a key pruned by the same path in two
successive passes gains exactly one per pass (two in total). -/
theorem c9_telemetry_monotone
    (db : NeighborKey → Except Unit (Option Nat)) (oracle : Nat → Nat) (now : Nat)
    (st st2 : PeerNetwork) (preserve : List Nat) (inL outL : List NeighborKey)
    (hWF : WF st)
    (h : prune_frontier db oracle now st preserve = some (st2, inL, outL)) :
    (∀ k ∈ inL, st2.prune_inbound_counts k = st.prune_inbound_counts k + 1) ∧
    (∀ k ∈ outL, st2.prune_outbound_counts k = st.prune_outbound_counts k + 1) ∧
    (∀ k, st.prune_inbound_counts k ≤ st2.prune_inbound_counts k) ∧
    (∀ k, st.prune_outbound_counts k ≤ st2.prune_outbound_counts k) ∧
    (∀ st4 inL2 outL2,
      prune_frontier db oracle now st2 preserve = some (st4, inL2, outL2) →
      (∀ k ∈ inL, k ∈ inL2 →
        st4.prune_inbound_counts k = st.prune_inbound_counts k + 2) ∧
      (∀ k ∈ outL, k ∈ outL2 →
        st4.prune_outbound_counts k = st.prune_outbound_counts k + 2)) := by
  obtain ⟨hWF2, hin1, hout1, hmin1, hmout1⟩ :=
    pass_counts db oracle now st st2 preserve inL outL hWF h
  refine ⟨hin1, hout1, hmin1, hmout1, ?_⟩
  intro st4 inL2 outL2 h2
  obtain ⟨_, hin2, hout2, _, _⟩ :=
    pass_counts db oracle now st2 st4 preserve inL2 outL2 hWF2 h2
  constructor
  · intro k hk1 hk2
    rw [hin2 k hk2, hin1 k hk1]
  · intro k hk1 hk2
    rw [hout2 k hk2, hout1 k hk1]

/-- C9 witness: the two-newest-connections pass increments both pruned
keys' inbound counters from zero to one and leaves all others at
zero. -/
theorem c9_witness :
    WF cInSt ∧
    prune_frontier dbAll0 oracle0 500 cInSt [] =
      some (cInSt2, [nkOf 7 3, nkOf 7 4], []) ∧
    ((∀ k ∈ [nkOf 7 3, nkOf 7 4], cInSt2.prune_inbound_counts k =
        cInSt.prune_inbound_counts k + 1) ∧
      (∀ k ∈ ([] : List NeighborKey), cInSt2.prune_outbound_counts k =
        cInSt.prune_outbound_counts k + 1) ∧
      (∀ k, cInSt.prune_inbound_counts k ≤ cInSt2.prune_inbound_counts k) ∧
      (∀ k, cInSt.prune_outbound_counts k ≤ cInSt2.prune_outbound_counts k) ∧
      (∀ st4 inL2 outL2,
        prune_frontier dbAll0 oracle0 500 cInSt2 [] = some (st4, inL2, outL2) →
        (∀ k ∈ [nkOf 7 3, nkOf 7 4], k ∈ inL2 →
          st4.prune_inbound_counts k = cInSt.prune_inbound_counts k + 2) ∧
        (∀ k ∈ ([] : List NeighborKey), k ∈ outL2 →
          st4.prune_outbound_counts k = cInSt.prune_outbound_counts k + 2))) :=
  ⟨by decide, rfl,
    c9_telemetry_monotone dbAll0 oracle0 500 cInSt cInSt2 []
      [nkOf 7 3, nkOf 7 4] [] (by decide) rfl⟩

/-- C5.  Past its fast path, the inbound pruner: groups exactly the
non-preserved inbound connections, keyed by address bytes only (so the
port is ignored and same-IP clients land in one group); sorts each group
stably ascending by `first_contact_time`; and returns exactly the
members at sorted positions `≥ soft_max_clients_per_host` of each
oversized group — the newest excess — and none at earlier positions. -/
theorem c5_inbound_per_host_cap (st : PeerNetwork) (preserve : List Nat)
    (hover : st.soft_num_clients <
      num_peers st - count_outbound_conversations st.peers) :
    groupVals (ipGroupsGo st.peers preserve [] st.events) ~
      selectedInbound st.peers preserve st.events ∧
    (∀ p ∈ ipGroupsGo st.peers preserve [] st.events, ∀ t ∈ p.2,
      t.2.1.addrbytes = p.1) ∧
    (∀ p ∈ ipGroupsGo st.peers preserve [] st.events,
      List.insertionSort fcLe p.2 ~ p.2 ∧
      (List.insertionSort fcLe p.2).Pairwise
        (fun a b => a.2.2.first_contact_time ≤ b.2.2.first_contact_time)) ∧
    (∀ nk, nk ∈ prune_frontier_inbound_ip st preserve ↔
      ∃ p ∈ ipGroupsGo st.peers preserve [] st.events,
        st.soft_max_clients_per_host < p.2.length ∧
        nk ∈ ((List.insertionSort fcLe p.2).drop
          st.soft_max_clients_per_host).map (fun t => t.2.1)) := by
  refine ⟨?_, ?_, ?_, ?_⟩
  · simpa [groupVals] using @ipGroupsGo_perm st.peers preserve [] st.events
  · exact ipGroupsGo_addr st.events []
      (fun p hp => absurd hp (List.not_mem_nil p))
  · intro p _
    refine ⟨List.perm_insertionSort fcLe p.2, ?_⟩
    have hs := List.sorted_insertionSort fcLe p.2
    exact hs.imp (fun h => (fcLe_iff _ _).mp h)
  · intro nk
    unfold prune_frontier_inbound_ip
    rw [if_neg (by omega)]
    rw [foldl_trim_eq]
    simp only [List.nil_append]
    constructor
    · intro hnk
      obtain ⟨lc, hlc, hnkl⟩ := List.mem_join.mp hnk
      obtain ⟨ps, hps, hcomp⟩ := List.mem_map.mp hlc
      obtain ⟨p, hp, hsort⟩ := List.mem_map.mp hps
      subst hsort
      subst hcomp
      by_cases hcap : st.soft_max_clients_per_host <
          (List.insertionSort fcLe p.2).length
      · refine ⟨p, hp, ?_, ?_⟩
        · rw [← List.length_insertionSort fcLe p.2]
          exact hcap
        · rw [if_pos hcap] at hnkl
          exact hnkl
      · rw [if_neg hcap] at hnkl
        simp at hnkl
    · intro hex
      obtain ⟨p, hp, hcap, hnk⟩ := hex
      refine List.mem_join.mpr ⟨((List.insertionSort fcLe p.2).drop
        st.soft_max_clients_per_host).map (fun t => t.2.1), ?_, hnk⟩
      have hcap' : st.soft_max_clients_per_host <
          (List.insertionSort fcLe p.2).length := by
        rw [List.length_insertionSort fcLe p.2]
        exact hcap
      refine List.mem_map.mpr
        ⟨(p.1, List.insertionSort fcLe p.2), List.mem_map.mpr ⟨p, hp, rfl⟩, ?_⟩
      rw [if_pos hcap']

/-- The spec's per-host example, with the `events` iteration order
scrambled so the stable sort does real work: one IP (address bytes 7),
four inbound connections at first contact times 100, 200, 300 and 400,
`soft_max_clients_per_host = 2`. -/
def c5st : PeerNetwork :=
  { cInSt with
    events := [(nkOf 7 3, 3), (nkOf 7 1, 1), (nkOf 7 4, 4), (nkOf 7 2, 2)] }

/-- C5 witness: the pruner returns exactly the connections at times 300
and 400 (ports 3 and 4) and never those at 100 or 200. -/
theorem c5_witness :
    c5st.soft_num_clients <
      num_peers c5st - count_outbound_conversations c5st.peers ∧
    (∀ nk, nk ∈ prune_frontier_inbound_ip c5st [] ↔
      ∃ p ∈ ipGroupsGo c5st.peers [] [] c5st.events,
        c5st.soft_max_clients_per_host < p.2.length ∧
        nk ∈ ((List.insertionSort fcLe p.2).drop
          c5st.soft_max_clients_per_host).map (fun t => t.2.1)) ∧
    prune_frontier_inbound_ip c5st [] = [nkOf 7 3, nkOf 7 4] ∧
    ¬ nkOf 7 1 ∈ prune_frontier_inbound_ip c5st [] ∧
    ¬ nkOf 7 2 ∈ prune_frontier_inbound_ip c5st [] :=
  ⟨by decide, (c5_inbound_per_host_cap c5st [] (by decide)).2.2.2,
    by decide, by decide, by decide⟩

end Prune
